import Mathlib

/-!
# simple_hash: an open-addressing hash table with linear probing

Shallow embedding of `src/main.c` (employee id to salary table) and the
properties settled about it.

Conventions of the embedding.

* A C `int` is an `Int` in the range `INT_MIN .. INT_MAX` (32 bits), a `size_t`
  is a `Nat` below `2 ^ 64`.  Every conversion between the two that the C code
  performs implicitly is written out (`toSizeT`, `toInt`).
* A call ends in an `Outcome`: it returns (`ret`), it stops at a failed
  `assert` (`assertFail`), it runs into undefined behaviour (`ub`: signed
  overflow, remainder by zero, an index outside the slot array), or the model
  ran out of loop fuel (`noFuel`).  A call that never returns in C is one
  that is `noFuel` for every amount of fuel.
* The operations are embedded a second time with `int` additions that wrap
  around modulo `2 ^ 32` (`HT_New_wrap`, `HT_Insert_wrap`, `HT_Search_wrap`):
  what a two's-complement build computes where the C standard leaves the
  overflow undefined.  A call that returns in the first embedding returns
  the same in the second.
* The `float` payload is only ever stored and copied, never computed with, so
  the payload type `F` is a parameter of the model.
* The `DBG_PRINT` traces write to stderr only and are left out.
-/

namespace SimpleHash

/-! ## Machine integers -/

/-- Largest value of the C type `int`. -/
def INT_MAX : Int := 2147483647

/-- Smallest value of the C type `int`. -/
def INT_MIN : Int := -2147483648

/-- Largest value of the C type `size_t`. -/
def SIZE_MAX : Nat := 18446744073709551615

/-- Conversion of an `int` to `size_t`: reduction modulo `2 ^ 64`. -/
def toSizeT (x : Int) : Nat := (x % 18446744073709551616).toNat

/-- Conversion of a `size_t` to `int`.  A value that does not fit is reduced
modulo `2 ^ 32` into the range of `int` (what gcc and clang define). -/
def toInt (n : Nat) : Int :=
  if n % 4294967296 < 2147483648 then ((n % 4294967296 : Nat) : Int)
  else ((n % 4294967296 : Nat) : Int) - 4294967296

/-- How a call ends. -/
inductive Outcome (α : Type) where
  | ret (a : α) : Outcome α
  | assertFail : Outcome α
  | ub : Outcome α
  | noFuel : Outcome α
  deriving DecidableEq, Repr

/-- Addition of two `int`s; signed overflow is undefined behaviour. -/
def addInt (a b : Int) : Outcome Int :=
  if INT_MIN ≤ a + b ∧ a + b ≤ INT_MAX then .ret (a + b) else .ub

/-! ## Data model -/

/-- Marker stored in `id` for a slot that was never used. -/
def EMPTY_CELL : Int := -1

/-- Marker stored in `id` for a slot whose entry was removed. -/
def DELETED_CELL : Int := -2

/-- One slot: `typedef struct { int id; float salary; } Entry_table;`. -/
structure Entry_table (F : Type) where
  id : Int
  salary : F
  deriving DecidableEq, Repr

/-- The table: `typedef struct { Entry_table* table; size_t capacity; size_t len; } Hash_table;`.
The memory block `table` points to is the list of its slots. -/
structure Hash_table (F : Type) where
  table : List (Entry_table F)
  capacity : Nat
  len : Nat
  deriving DecidableEq, Repr

variable {F : Type}

/-- Read `table[ pos ]` for an `int` index; `none` when the index is outside the block. -/
def cellAt (t : List (Entry_table F)) (pos : Int) : Option (Entry_table F) :=
  if 0 ≤ pos then t[pos.toNat]? else none

/-! ## Hash and probe functions -/

/-- Source: `static int h( int key, size_t m ) { return key % m; }`.
The key is converted to `size_t`, the remainder is unsigned and converted back. -/
def h (key : Int) (m : Nat) : Outcome Int :=
  if m = 0 then .ub else .ret (toInt (toSizeT key % m))

/-- Source: `static int probe( int key, size_t i ) { return i + 1; }`. -/
def probe (_key : Int) (i : Nat) : Int :=
  toInt ((i + 1) % 18446744073709551616)

/-- The two statements that close an iteration of both probing loops:
`pos = ( home + probe( id, i ) ) % ht->capacity; ++i;`.
Gives the new `pos` and the new `i`. -/
def advance (capacity : Nat) (id home i : Int) : Outcome (Int × Int) :=
  match addInt home (probe id (toSizeT i)) with
  | .ret s =>
    if capacity = 0 then .ub
    else
      match addInt i 1 with
      | .ret i' => .ret (toInt (toSizeT s % capacity), i')
      | _ => .ub
  | _ => .ub

/-! ## Operations -/

/-- The initialisation loop of `HT_New`:
`for( int i = 0; i < ht->capacity; ++i ) { table[ i ].id = EMPTY_CELL; table[ i ].salary = 0.0; }`. -/
def HT_New_loop [Zero F] (capacity : Nat) : Nat → Int → List (Entry_table F) →
    Outcome (List (Entry_table F))
  | 0, _, _ => .noFuel
  | fuel + 1, i, t =>
    if toSizeT i < capacity then
      match cellAt t i with
      | none => .ub
      | some _ =>
        match addInt i 1 with
        | .ret i' => HT_New_loop capacity fuel i' (t.set i.toNat ⟨EMPTY_CELL, 0⟩)
        | _ => .ub
    else .ret t

/-- Source: `Hash_table* HT_New( size_t capacity )`.
The two `malloc` calls are inputs of the model: `recordOk` tells whether the
table record could be allocated, `block` is the slot array handed out by the
second `malloc` with whatever it contains (`none` for `NULL`).
The result is the new table, or `none` for the `NULL` handle. -/
def HT_New [Zero F] (fuel : Nat) (recordOk : Bool) (block : Option (List (Entry_table F)))
    (capacity : Nat) : Outcome (Option (Hash_table F)) :=
  if recordOk then
    match block with
    | some t =>
      match HT_New_loop capacity fuel 0 t with
      | .ret t' => .ret (some { table := t', capacity := capacity, len := 0 })
      | .assertFail => .assertFail
      | .ub => .ub
      | .noFuel => .noFuel
    | none => .ret none
  else .ret none

/-- The scan of `HT_Insert`:
`while( table[ pos ].id >= 0 ) { if( table[ pos ].id == id ) return false; pos = ...; ++i; }`.
Gives `none` when the key was met (the early `return false`) and the position
the loop stopped at otherwise. -/
def HT_Insert_loop (ht : Hash_table F) (id home : Int) : Nat → Int → Int → Outcome (Option Int)
  | 0, _, _ => .noFuel
  | fuel + 1, pos, i =>
    match cellAt ht.table pos with
    | none => .ub
    | some e =>
      if 0 ≤ e.id then
        if e.id = id then .ret none
        else
          match advance ht.capacity id home i with
          | .ret (pos', i') => HT_Insert_loop ht id home fuel pos' i'
          | _ => .ub
      else .ret (some pos)

/-- Source: `bool HT_Insert( Hash_table* ht, int id, float salary )`.
Gives the returned `bool` and the table after the call. -/
def HT_Insert (fuel : Nat) (ht : Hash_table F) (id : Int) (salary : F) :
    Outcome (Bool × Hash_table F) :=
  if ht.len < ht.capacity then
    match h id ht.capacity with
    | .ret home =>
      match HT_Insert_loop ht id home fuel home 0 with
      | .ret none => .ret (false, ht)
      | .ret (some pos) =>
        .ret (true, { table := ht.table.set pos.toNat ⟨id, salary⟩,
                      capacity := ht.capacity,
                      len := (ht.len + 1) % 18446744073709551616 })
      | .assertFail => .assertFail
      | .ub => .ub
      | .noFuel => .noFuel
    | _ => .ub
  else .assertFail

/-- The loop of `HT_Search`:
`while( table[ pos ].id != EMPTY_CELL && found == false ) { pos = ...; ++i; if( table[ pos ].id == id ) found = true; }`.
Gives the final `pos` and `found`. -/
def HT_Search_loop (ht : Hash_table F) (id home : Int) :
    Nat → Int → Int → Bool → Outcome (Int × Bool)
  | 0, _, _, _ => .noFuel
  | fuel + 1, pos, i, found =>
    match cellAt ht.table pos with
    | none => .ub
    | some e =>
      if e.id ≠ EMPTY_CELL ∧ found = false then
        match advance ht.capacity id home i with
        | .ret (pos', i') =>
          match cellAt ht.table pos' with
          | none => .ub
          | some e' =>
            HT_Search_loop ht id home fuel pos' i' (if e'.id = id then true else found)
        | _ => .ub
      else .ret (pos, found)

/-- The end of `HT_Search`: `if( found ) { *salary = table[ pos ].salary; ret_val = true; } return ret_val;`. -/
def HT_Search_finish (ht : Hash_table F) (pos : Int) (found : Bool) (salary : F) :
    Outcome (Bool × F) :=
  if found then
    match cellAt ht.table pos with
    | none => .ub
    | some e => .ret (true, e.salary)
  else .ret (false, salary)

/-- Source: `bool HT_Search( const Hash_table* ht, int id, float *salary )`.
The argument `salary` is what `*salary` holds before the call; the result is
the returned `bool` and what `*salary` holds afterwards. -/
def HT_Search (fuel : Nat) (ht : Hash_table F) (id : Int) (salary : F) : Outcome (Bool × F) :=
  if 0 < ht.len then
    match h id ht.capacity with
    | .ret home =>
      match cellAt ht.table home with
      | none => .ub
      | some e =>
        if e.id = id then HT_Search_finish ht home true salary
        else if e.id = EMPTY_CELL then HT_Search_finish ht home false salary
        else
          match HT_Search_loop ht id home fuel home 0 false with
          | .ret (pos, found) => HT_Search_finish ht pos found salary
          | .assertFail => .assertFail
          | .ub => .ub
          | .noFuel => .noFuel
    | _ => .ub
  else .assertFail

/-- Source: `bool HT_Remove( const Hash_table* ht, int id ) { return false; }`.
Gives the returned `bool` and the table after the call. -/
def HT_Remove (ht : Hash_table F) (_id : Int) : Bool × Hash_table F :=
  (false, ht)

/-! ## The operations where `int` arithmetic wraps around

The same statements of `src/main.c` with signed overflow wrapping around modulo `2 ^ 32`
(two's complement), the behaviour of a build that does not exploit the overflow.  They tell
what such a build does on the inputs on which the operations above end in `ub`. -/

/-- Addition of two `int`s where signed overflow wraps around modulo `2 ^ 32`: the sum is
reduced into the range of `int`. -/
def addIntWrap (a b : Int) : Int := toInt (toSizeT (a + b))

/-- Source: `pos = ( home + probe( id, i ) ) % ht->capacity; ++i;`, the two statements that
close an iteration of both probing loops, with wrapping additions.
Gives the new `pos` and the new `i`. -/
def advanceWrap (capacity : Nat) (id home i : Int) : Outcome (Int × Int) :=
  if capacity = 0 then .ub
  else .ret (toInt (toSizeT (addIntWrap home (probe id (toSizeT i))) % capacity),
    addIntWrap i 1)

/-- Source: the loop of `HT_Search`,
`while( table[ pos ].id != EMPTY_CELL && found == false ) { pos = ...; ++i; if( table[ pos ].id == id ) found = true; }`,
with wrapping additions.  Gives the final `pos` and `found`. -/
def HT_Search_loop_wrap (ht : Hash_table F) (id home : Int) :
    Nat → Int → Int → Bool → Outcome (Int × Bool)
  | 0, _, _, _ => .noFuel
  | fuel + 1, pos, i, found =>
    match cellAt ht.table pos with
    | none => .ub
    | some e =>
      if e.id ≠ EMPTY_CELL ∧ found = false then
        match advanceWrap ht.capacity id home i with
        | .ret (pos', i') =>
          match cellAt ht.table pos' with
          | none => .ub
          | some e' =>
            HT_Search_loop_wrap ht id home fuel pos' i' (if e'.id = id then true else found)
        | _ => .ub
      else .ret (pos, found)

/-- Source: `bool HT_Search( const Hash_table* ht, int id, float *salary )`, with wrapping
additions in its loop. -/
def HT_Search_wrap (fuel : Nat) (ht : Hash_table F) (id : Int) (salary : F) :
    Outcome (Bool × F) :=
  if 0 < ht.len then
    match h id ht.capacity with
    | .ret home =>
      match cellAt ht.table home with
      | none => .ub
      | some e =>
        if e.id = id then HT_Search_finish ht home true salary
        else if e.id = EMPTY_CELL then HT_Search_finish ht home false salary
        else
          match HT_Search_loop_wrap ht id home fuel home 0 false with
          | .ret (pos, found) => HT_Search_finish ht pos found salary
          | .assertFail => .assertFail
          | .ub => .ub
          | .noFuel => .noFuel
    | _ => .ub
  else .assertFail

/-- The position a wrapping scan for `id` inspects at its step `t`: step 0 is the home slot,
step `t + 1` is what `advanceWrap` computes when the counter has been incremented `t` times. -/
def wrapPos (capacity : Nat) (id home : Int) : Nat → Int
  | 0 => home
  | t + 1 => toInt (toSizeT (addIntWrap home (probe id (toSizeT (toInt t)))) % capacity)

/-- Source: the scan of `HT_Insert`,
`while( table[ pos ].id >= 0 ) { if( table[ pos ].id == id ) return false; pos = ...; ++i; }`,
with wrapping additions. -/
def HT_Insert_loop_wrap (ht : Hash_table F) (id home : Int) :
    Nat → Int → Int → Outcome (Option Int)
  | 0, _, _ => .noFuel
  | fuel + 1, pos, i =>
    match cellAt ht.table pos with
    | none => .ub
    | some e =>
      if 0 ≤ e.id then
        if e.id = id then .ret none
        else
          match advanceWrap ht.capacity id home i with
          | .ret (pos', i') => HT_Insert_loop_wrap ht id home fuel pos' i'
          | _ => .ub
      else .ret (some pos)

/-- Source: `bool HT_Insert( Hash_table* ht, int id, float salary )`, with wrapping additions
in its scan. -/
def HT_Insert_wrap (fuel : Nat) (ht : Hash_table F) (id : Int) (salary : F) :
    Outcome (Bool × Hash_table F) :=
  if ht.len < ht.capacity then
    match h id ht.capacity with
    | .ret home =>
      match HT_Insert_loop_wrap ht id home fuel home 0 with
      | .ret none => .ret (false, ht)
      | .ret (some pos) =>
        .ret (true, { table := ht.table.set pos.toNat ⟨id, salary⟩,
                      capacity := ht.capacity,
                      len := (ht.len + 1) % 18446744073709551616 })
      | .assertFail => .assertFail
      | .ub => .ub
      | .noFuel => .noFuel
    | _ => .ub
  else .assertFail

/-- Source: the initialisation loop of `HT_New`,
`for( int i = 0; i < ht->capacity; ++i ) { table[ i ].id = EMPTY_CELL; table[ i ].salary = 0.0; }`,
with a wrapping `++i`. -/
def HT_New_loop_wrap [Zero F] (capacity : Nat) : Nat → Int → List (Entry_table F) →
    Outcome (List (Entry_table F))
  | 0, _, _ => .noFuel
  | fuel + 1, i, t =>
    if toSizeT i < capacity then
      match cellAt t i with
      | none => .ub
      | some _ => HT_New_loop_wrap capacity fuel (addIntWrap i 1) (t.set i.toNat ⟨EMPTY_CELL, 0⟩)
    else .ret t

/-- Source: `Hash_table* HT_New( size_t capacity )`, with a wrapping loop counter; the
allocations are inputs as in `HT_New`. -/
def HT_New_wrap [Zero F] (fuel : Nat) (recordOk : Bool)
    (block : Option (List (Entry_table F))) (capacity : Nat) :
    Outcome (Option (Hash_table F)) :=
  if recordOk then
    match block with
    | some t =>
      match HT_New_loop_wrap capacity fuel 0 t with
      | .ret t' => .ret (some { table := t', capacity := capacity, len := 0 })
      | .assertFail => .assertFail
      | .ub => .ub
      | .noFuel => .noFuel
    | none => .ret none
  else .ret none

/-! ## Vocabulary of the claims -/

/-- Number of Occupied slots: the slots whose `id` is non-negative. -/
def occupiedCount (ht : Hash_table F) : Nat :=
  ht.table.countP (fun e => decide (0 ≤ e.id))

/-- A client that calls `HT_Insert` once for every pair of the list, in order (as `main` does
for its six employees).  Gives the values returned by the calls and the final table. -/
def insertAll (fuel : Nat) : Hash_table F → List (Int × F) → Outcome (List Bool × Hash_table F)
  | ht, [] => .ret ([], ht)
  | ht, (k, v) :: rest =>
    match HT_Insert fuel ht k v with
    | .ret (b, ht') =>
      match insertAll fuel ht' rest with
      | .ret (bs, ht'') => .ret (b :: bs, ht'')
      | .assertFail => .assertFail
      | .ub => .ub
      | .noFuel => .noFuel
    | .assertFail => .assertFail
    | .ub => .ub
    | .noFuel => .noFuel

/-- A table state with `INT_MAX` slots: slot 1 holds key 2147483646 with value 7, slot 3 is
Empty and every other slot is Deleted; one slot is Occupied and `len` is 1. -/
def hugeTableStored : Hash_table Int :=
  ⟨⟨DELETED_CELL, 0⟩ :: ⟨2147483646, 7⟩ :: ⟨DELETED_CELL, 0⟩ :: ⟨EMPTY_CELL, 0⟩ ::
    List.replicate 2147483643 ⟨DELETED_CELL, 0⟩, 2147483647, 1⟩

/-- A table state with `INT_MAX` slots and no Deleted slot: slot 0 holds key 0, slot 1 holds
key 2147483646 with value 5, slot 3 is Empty and every other slot holds key 6; `len` is
2147483646, the number of Occupied slots. -/
def hugeTableDup : Hash_table Int :=
  ⟨⟨0, 0⟩ :: ⟨2147483646, 5⟩ :: ⟨6, 0⟩ :: ⟨EMPTY_CELL, 0⟩ ::
    List.replicate 2147483643 ⟨6, 0⟩, 2147483647, 2147483646⟩

/-- The six employees `main` inserts, the salaries written as integers. -/
def demoPairs : List (Int × Int) :=
  [(1234, 13500), (2345, 14650), (9876, 16560), (8765, 19876), (7650, 11000), (5665, 13500)]

/-- The table of `main` after its six insertions into `HT_New( 10 )`. -/
def demoTable : Hash_table Int :=
  ⟨[⟨7650, 11000⟩, ⟨-1, 0⟩, ⟨-1, 0⟩, ⟨-1, 0⟩, ⟨1234, 13500⟩, ⟨2345, 14650⟩, ⟨9876, 16560⟩,
    ⟨8765, 19876⟩, ⟨5665, 13500⟩, ⟨-1, 0⟩], 10, 6⟩

/-- Tables the program can build with capacity `C`: the table `HT_New( C )` returns when
both allocations succeed and the slot array has `C` entries, and every table a returning
call of `HT_Insert` with a non-negative `int` key leaves behind (the call returns only when
its `assert( len < capacity )` held). -/
inductive Reachable [Zero F] (C : Nat) : Hash_table F → Prop
  | new (fuel : Nat) (block : List (Entry_table F)) (ht : Hash_table F) :
      block.length = C → HT_New fuel true (some block) C = .ret (some ht) → Reachable C ht
  | insert (fuel : Nat) (ht ht' : Hash_table F) (k : Int) (v : F) (b : Bool) :
      Reachable C ht → 0 ≤ k → k ≤ INT_MAX → HT_Insert fuel ht k v = .ret (b, ht') →
      Reachable C ht'

/-- Invariant of the reachable tables of capacity `C`: the slot array has `C ≤ INT_MAX`
entries, `len` counts the Occupied slots, every `id` is `EMPTY_CELL` or a non-negative `int`,
and every stored key sits on its own probe sequence behind slots that hold other keys. -/
structure Inv (C : Nat) (ht : Hash_table F) : Prop where
  cap : ht.capacity = C
  size : ht.table.length = C
  cmax : C ≤ 2147483647
  lenEq : ht.len = occupiedCount ht
  ids : ∀ (p : Nat) (e : Entry_table F), ht.table[p]? = some e →
    e.id = EMPTY_CELL ∨ (0 ≤ e.id ∧ e.id ≤ INT_MAX)
  chain : ∀ (p : Nat) (e : Entry_table F), ht.table[p]? = some e → 0 ≤ e.id →
    ∃ j, j < C ∧ p = (e.id.toNat % C + j) % C ∧
      ∀ j', j' < j → ∃ e' : Entry_table F, ht.table[(e.id.toNat % C + j') % C]? = some e' ∧
        0 ≤ e'.id ∧ e'.id ≠ e.id

/-! ## Machine arithmetic of the probing step -/

theorem toSizeT_ofNat {n : Nat} (hn : n ≤ 2147483647) : toSizeT (n : Int) = n := by
  unfold toSizeT; omega

theorem toInt_small {n : Nat} (hn : n ≤ 2147483647) : toInt n = (n : Int) := by
  unfold toInt
  have h1 : n % 4294967296 = n := by omega
  rw [h1]
  have h2 : n < 2147483648 := by omega
  simp [h2]

theorem h_nonneg {k : Int} {C : Nat} (hk0 : 0 ≤ k) (hk : k ≤ INT_MAX) (hC : 0 < C) :
    h k C = .ret ((k.toNat % C : Nat) : Int) := by
  unfold INT_MAX at hk
  unfold h
  have hC0 : C ≠ 0 := by omega
  have hk' : toSizeT k = k.toNat := by unfold toSizeT; omega
  have hle : k.toNat % C ≤ 2147483647 := le_trans (Nat.mod_le _ _) (by omega)
  simp only [hC0, if_false, hk', toInt_small hle]

theorem advance_eq {C r n : Nat} (id : Int) (hC : 0 < C) (hb : r + n + 1 ≤ 2147483647) :
    advance C id (r : Int) (n : Int) = .ret ((((r + n + 1) % C : Nat) : Int), ((n + 1 : Nat) : Int)) := by
  unfold advance probe
  have hC0 : C ≠ 0 := by omega
  have h1 : toSizeT (n : Int) = n := toSizeT_ofNat (by omega)
  have h2 : (n + 1) % 18446744073709551616 = n + 1 := by omega
  have h3 : toInt (n + 1) = ((n + 1 : Nat) : Int) := toInt_small (by omega)
  rw [h1, h2, h3]
  have h4 : addInt (r : Int) ((n + 1 : Nat) : Int) = .ret (((r + n + 1 : Nat)) : Int) := by
    unfold addInt INT_MIN INT_MAX
    have : (-2147483648 : Int) ≤ (r : Int) + ((n + 1 : Nat) : Int) ∧
        (r : Int) + ((n + 1 : Nat) : Int) ≤ 2147483647 := by omega
    rw [if_pos this]
    congr 1
  have h5 : addInt (n : Int) 1 = .ret ((n + 1 : Nat) : Int) := by
    unfold addInt INT_MIN INT_MAX
    have : (-2147483648 : Int) ≤ (n : Int) + 1 ∧ (n : Int) + 1 ≤ 2147483647 := by omega
    rw [if_pos this]
    congr 1
  rw [h4]
  simp only [hC0, if_false, h5]
  have h6 : toSizeT ((r + n + 1 : Nat) : Int) = r + n + 1 := toSizeT_ofNat hb
  have hle : (r + n + 1) % C ≤ 2147483647 := le_trans (Nat.mod_le _ _) hb
  rw [h6, toInt_small hle]

theorem advance_overflow {C r n : Nat} (id : Int) (hb : r + n = 2147483647) :
    ∀ x, advance C id (r : Int) (n : Int) ≠ .ret x := by
  intro x
  unfold advance probe
  have h1 : toSizeT (n : Int) = n := toSizeT_ofNat (by omega)
  have h2 : (n + 1) % 18446744073709551616 = n + 1 := by omega
  rw [h1, h2]
  by_cases hn : n = 2147483647
  · have h5 : addInt (n : Int) 1 = .ub := by
      unfold addInt INT_MIN INT_MAX
      have : ¬ ((-2147483648 : Int) ≤ (n : Int) + 1 ∧ (n : Int) + 1 ≤ 2147483647) := by omega
      rw [if_neg this]
    split
    · split
      · simp
      · rw [h5]; simp
    · simp
  · have h3 : toInt (n + 1) = ((n + 1 : Nat) : Int) := toInt_small (by omega)
    have h4 : addInt (r : Int) ((n + 1 : Nat) : Int) = .ub := by
      unfold addInt INT_MIN INT_MAX
      have : ¬ ((-2147483648 : Int) ≤ (r : Int) + ((n + 1 : Nat) : Int) ∧
          (r : Int) + ((n + 1 : Nat) : Int) ≤ 2147483647) := by omega
      rw [if_neg this]
    rw [h3, h4]
    simp

/-! ## The probing loops, run and traced back -/

theorem cellAt_ofNat (t : List (Entry_table F)) (p : Nat) : cellAt t (p : Int) = t[p]? := by
  unfold cellAt
  simp

theorem advance_zero (id home i : Int) : ∀ x, advance 0 id home i ≠ .ret x := by
  intro x
  unfold advance
  split
  · rw [if_pos rfl]; exact fun hx => Outcome.noConfusion hx
  · exact fun hx => Outcome.noConfusion hx

/-- Running the scan of `HT_Insert` from offset `n`: when the slots at offsets `n .. n+d-1`
hold other keys and the slot at offset `n+d` does not, the scan stops there. -/
theorem insert_loop_run (ht : Hash_table F) (k : Int) (r : Nat) (hC : 0 < ht.capacity) :
    ∀ (d n fuel : Nat), d < fuel → r + (n + d) ≤ 2147483647 →
      (∀ j, n ≤ j → j < n + d →
        ∃ e, ht.table[(r + j) % ht.capacity]? = some e ∧ 0 ≤ e.id ∧ e.id ≠ k) →
      ∀ e, ht.table[(r + (n + d)) % ht.capacity]? = some e → ¬ (0 ≤ e.id ∧ e.id ≠ k) →
      HT_Insert_loop ht k (r : Int) fuel (((r + n) % ht.capacity : Nat) : Int) (n : Int)
        = .ret (if 0 ≤ e.id then none else some (((r + (n + d)) % ht.capacity : Nat) : Int)) := by
  intro d
  induction d with
  | zero =>
    intro n fuel hf _ _ e he hne
    obtain ⟨f, rfl⟩ : ∃ f, fuel = f + 1 := ⟨fuel - 1, by omega⟩
    unfold HT_Insert_loop
    simp only [cellAt_ofNat]
    simp only [Nat.add_zero] at he ⊢
    rw [he]
    by_cases h0 : 0 ≤ e.id
    · have hk : e.id = k := by
        by_contra hx
        exact hne ⟨h0, hx⟩
      simp only
      rw [if_pos h0, if_pos hk, if_pos h0]
    · simp only
      rw [if_neg h0, if_neg h0]
  | succ d ih =>
    intro n fuel hf hb hocc e he hne
    obtain ⟨f, rfl⟩ : ∃ f, fuel = f + 1 := ⟨fuel - 1, by omega⟩
    obtain ⟨e0, he0, h0, hk0⟩ := hocc n (le_refl _) (by omega)
    unfold HT_Insert_loop
    simp only [cellAt_ofNat]
    rw [he0]
    simp only
    rw [if_pos h0, if_neg hk0, advance_eq k hC (by omega)]
    simp only
    have := ih (n + 1) f (by omega) (by omega)
      (fun j hj1 hj2 => hocc j (by omega) (by omega)) e
      (by rw [show n + 1 + d = n + (d + 1) by omega]; exact he) hne
    rw [show r + (n + 1) = r + n + 1 by omega, show n + 1 + d = n + (d + 1) by omega] at this
    exact this

/-- What a returning scan of `HT_Insert` went through. -/
theorem insert_loop_ret (ht : Hash_table F) (k : Int) (r : Nat) :
    ∀ (fuel n : Nat) (res : Option Int), r + n ≤ 2147483647 →
      HT_Insert_loop ht k (r : Int) fuel (((r + n) % ht.capacity : Nat) : Int) (n : Int) = .ret res →
      ∃ d e, d < fuel ∧ r + (n + d) ≤ 2147483647 ∧
        (∀ j, n ≤ j → j < n + d →
          ∃ e, ht.table[(r + j) % ht.capacity]? = some e ∧ 0 ≤ e.id ∧ e.id ≠ k) ∧
        ht.table[(r + (n + d)) % ht.capacity]? = some e ∧ ¬ (0 ≤ e.id ∧ e.id ≠ k) ∧
        res = (if 0 ≤ e.id then none else some (((r + (n + d)) % ht.capacity : Nat) : Int)) := by
  intro fuel
  induction fuel with
  | zero => intro n res _ hl; simp [HT_Insert_loop] at hl
  | succ f ih =>
    intro n res hb hl
    unfold HT_Insert_loop at hl
    simp only [cellAt_ofNat] at hl
    split at hl
    · exact Outcome.noConfusion hl
    · rename_i e he
      by_cases h0 : 0 ≤ e.id
      · by_cases hk : e.id = k
        · rw [if_pos h0, if_pos hk] at hl
          injection hl with hl
          exact ⟨0, e, by omega, by omega, fun j h1 h2 => by omega, he,
            fun hx => hx.2 hk, by rw [if_pos h0]; exact hl.symm⟩
        · rw [if_pos h0, if_neg hk] at hl
          by_cases hb' : r + n + 1 ≤ 2147483647
          · by_cases hC : 0 < ht.capacity
            · rw [advance_eq k hC hb'] at hl
              simp only at hl
              rw [show r + n + 1 = r + (n + 1) by omega] at hl
              obtain ⟨d, e', hd, hbd, hocc, he', hne, hres⟩ := ih (n + 1) res (by omega) hl
              refine ⟨d + 1, e', by omega, by omega, ?_, ?_, hne, ?_⟩
              · intro j hj1 hj2
                by_cases hjn : j = n
                · subst hjn; exact ⟨e, he, h0, hk⟩
                · exact hocc j (by omega) (by omega)
              · rw [show n + (d + 1) = n + 1 + d by omega]; exact he'
              · rw [show n + (d + 1) = n + 1 + d by omega]; exact hres
            · have hC0 : ht.capacity = 0 := by omega
              rw [hC0] at hl
              split at hl
              · rename_i p' i' hadv
                exact absurd hadv (advance_zero _ _ _ _)
              · exact Outcome.noConfusion hl
          · have hov := advance_overflow (C := ht.capacity) k (show r + n = 2147483647 by omega)
            split at hl
            · rename_i p' i' hadv
              exact absurd hadv (hov _)
            · exact Outcome.noConfusion hl
      · rw [if_neg h0] at hl
        injection hl with hl
        exact ⟨0, e, by omega, by omega, fun j h1 h2 => by omega, he,
          fun hx => h0 hx.1, by rw [if_neg h0]; exact hl.symm⟩

/-- Running the loop of `HT_Search` from offset `n`, the key not yet found: when the slots at
offsets `n .. n+d` hold neither the key nor the Empty marker and the slot at offset `n+d+1`
holds one of the two, the loop stops there. -/
theorem search_loop_run (ht : Hash_table F) (k : Int) (r : Nat) (hC : 0 < ht.capacity) :
    ∀ (d n fuel : Nat), d + 1 < fuel → r + (n + d + 1) ≤ 2147483647 →
      (∀ j, n ≤ j → j ≤ n + d →
        ∃ e, ht.table[(r + j) % ht.capacity]? = some e ∧ e.id ≠ k ∧ e.id ≠ EMPTY_CELL) →
      ∀ e, ht.table[(r + (n + d + 1)) % ht.capacity]? = some e →
        (e.id = k ∨ e.id = EMPTY_CELL) →
      HT_Search_loop ht k (r : Int) fuel (((r + n) % ht.capacity : Nat) : Int) (n : Int) false
        = .ret ((((r + (n + d + 1)) % ht.capacity : Nat) : Int), if e.id = k then true else false) := by
  intro d
  induction d with
  | zero =>
    intro n fuel hf hb hoth e he hstop
    obtain ⟨f, rfl⟩ : ∃ f, fuel = f + 1 + 1 := ⟨fuel - 2, by omega⟩
    obtain ⟨e0, he0, hk0, hE0⟩ := hoth n (le_refl _) (by omega)
    unfold HT_Search_loop
    simp only [cellAt_ofNat]
    rw [he0]
    simp only
    rw [if_pos ⟨hE0, trivial⟩, advance_eq k hC (by omega)]
    simp only [cellAt_ofNat]
    rw [show r + n + 1 = r + (n + 0 + 1) by omega, he]
    simp only
    unfold HT_Search_loop
    simp only [cellAt_ofNat]
    rw [he]
    simp only
    by_cases hk : e.id = k
    · rw [if_pos hk, if_neg (by simp)]
    · have hE : e.id = EMPTY_CELL := hstop.resolve_left hk
      rw [if_neg hk, if_neg (fun hx => hx.1 hE)]
  | succ d ih =>
    intro n fuel hf hb hoth e he hstop
    obtain ⟨f, rfl⟩ : ∃ f, fuel = f + 1 := ⟨fuel - 1, by omega⟩
    obtain ⟨e0, he0, hk0, hE0⟩ := hoth n (le_refl _) (by omega)
    obtain ⟨e1, he1, hk1, hE1⟩ := hoth (n + 1) (by omega) (by omega)
    unfold HT_Search_loop
    simp only [cellAt_ofNat]
    rw [he0]
    simp only
    rw [if_pos ⟨hE0, trivial⟩, advance_eq k hC (by omega)]
    simp only [cellAt_ofNat]
    rw [show r + n + 1 = r + (n + 1) by omega, he1]
    simp only
    rw [if_neg hk1]
    have := ih (n + 1) f (by omega) (by omega)
      (fun j hj1 hj2 => hoth j (by omega) (by omega)) e
      (by rw [show n + 1 + d + 1 = n + (d + 1) + 1 by omega]; exact he) hstop
    rw [show n + 1 + d + 1 = n + (d + 1) + 1 by omega] at this
    exact this

theorem search_loop_found (ht : Hash_table F) (k home : Int) (fuel : Nat) (pos i p : Int)
    (fnd : Bool) (hl : HT_Search_loop ht k home fuel pos i true = .ret (p, fnd)) :
    p = pos ∧ fnd = true := by
  cases fuel with
  | zero => simp [HT_Search_loop] at hl
  | succ f =>
    unfold HT_Search_loop at hl
    split at hl
    · exact Outcome.noConfusion hl
    · rw [if_neg (by simp)] at hl
      injection hl with hl
      injection hl with h1 h2
      exact ⟨h1.symm, h2.symm⟩

/-- What a returning loop of `HT_Search` went through. -/
theorem search_loop_ret (ht : Hash_table F) (k : Int) (r : Nat) :
    ∀ (fuel n : Nat) (p : Int) (fnd : Bool), r + n ≤ 2147483647 →
      (∀ e, ht.table[(r + n) % ht.capacity]? = some e → e.id ≠ k) →
      HT_Search_loop ht k (r : Int) fuel (((r + n) % ht.capacity : Nat) : Int) (n : Int) false
        = .ret (p, fnd) →
      ∃ d e, d < fuel ∧ r + (n + d) ≤ 2147483647 ∧
        (∀ j, n ≤ j → j < n + d →
          ∃ e, ht.table[(r + j) % ht.capacity]? = some e ∧ e.id ≠ k ∧ e.id ≠ EMPTY_CELL) ∧
        ht.table[(r + (n + d)) % ht.capacity]? = some e ∧ (e.id = k ∨ e.id = EMPTY_CELL) ∧
        p = (((r + (n + d)) % ht.capacity : Nat) : Int) ∧
        fnd = (if e.id = k then true else false) := by
  intro fuel
  induction fuel with
  | zero => intro n p fnd _ _ hl; simp [HT_Search_loop] at hl
  | succ f ih =>
    intro n p fnd hb hnk hl
    unfold HT_Search_loop at hl
    simp only [cellAt_ofNat] at hl
    split at hl
    · exact Outcome.noConfusion hl
    · rename_i e he
      have hek : e.id ≠ k := hnk e he
      by_cases hE : e.id = EMPTY_CELL
      · rw [if_neg (fun hx => hx.1 hE)] at hl
        injection hl with hl
        injection hl with h1 h2
        exact ⟨0, e, by omega, by omega, fun j h1 h2 => by omega, he, Or.inr hE,
          h1.symm, by rw [if_neg hek]; exact h2.symm⟩
      · rw [if_pos ⟨hE, trivial⟩] at hl
        by_cases hb' : r + n + 1 ≤ 2147483647
        · by_cases hC : 0 < ht.capacity
          · rw [advance_eq k hC hb'] at hl
            simp only [cellAt_ofNat] at hl
            split at hl
            · exact Outcome.noConfusion hl
            · rename_i e' he'
              rw [show r + n + 1 = r + (n + 1) by omega] at hl he'
              by_cases hk' : e'.id = k
              · rw [if_pos hk'] at hl
                obtain ⟨h1, h2⟩ := search_loop_found ht k _ f _ _ p fnd hl
                refine ⟨1, e', ?_, by omega, ?_, he', Or.inl hk', h1, by rw [if_pos hk']; exact h2⟩
                · cases f with
                  | zero => simp [HT_Search_loop] at hl
                  | succ f' => omega
                · intro j hj1 hj2
                  have : j = n := by omega
                  subst this
                  exact ⟨e, he, hek, hE⟩
              · rw [if_neg hk'] at hl
                obtain ⟨d, e2, hd, hbd, hoth, he2, hstop, hp, hf⟩ :=
                  ih (n + 1) p fnd (by omega)
                    (fun x hx => by rw [he'] at hx; injection hx with hx; subst hx; exact hk') hl
                refine ⟨d + 1, e2, by omega, by omega, ?_, ?_, hstop, ?_, hf⟩
                · intro j hj1 hj2
                  by_cases hjn : j = n
                  · subst hjn; exact ⟨e, he, hek, hE⟩
                  · exact hoth j (by omega) (by omega)
                · rw [show n + (d + 1) = n + 1 + d by omega]; exact he2
                · rw [show n + (d + 1) = n + 1 + d by omega]; exact hp
          · have hC0 : ht.capacity = 0 := by omega
            rw [hC0] at hl
            split at hl
            · rename_i p' i' hadv
              exact absurd hadv (advance_zero _ _ _ _)
            · exact Outcome.noConfusion hl
        · have hov := advance_overflow (C := ht.capacity) k (show r + n = 2147483647 by omega)
          split at hl
          · rename_i p' i' hadv
            exact absurd hadv (hov _)
          · exact Outcome.noConfusion hl

/-- Running `HT_Insert`: with `d` the first offset on the probe sequence of `k` whose slot
does not hold another key, the call returns `false` when that slot holds `k` and writes the
pair there otherwise. -/
theorem HT_Insert_run (ht : Hash_table F) (k : Int) (v : F) (hk0 : 0 ≤ k) (hk : k ≤ INT_MAX)
    (hlen : ht.len < ht.capacity) (d fuel : Nat) (hf : d < fuel)
    (hb : k.toNat % ht.capacity + d ≤ 2147483647)
    (hoth : ∀ j, j < d →
      ∃ e, ht.table[(k.toNat % ht.capacity + j) % ht.capacity]? = some e ∧ 0 ≤ e.id ∧ e.id ≠ k)
    (e : Entry_table F) (he : ht.table[(k.toNat % ht.capacity + d) % ht.capacity]? = some e)
    (hne : ¬ (0 ≤ e.id ∧ e.id ≠ k)) :
    HT_Insert fuel ht k v = .ret (if 0 ≤ e.id then (false, ht) else
      (true, { table := ht.table.set ((k.toNat % ht.capacity + d) % ht.capacity) ⟨k, v⟩,
               capacity := ht.capacity,
               len := (ht.len + 1) % 18446744073709551616 })) := by
  have hC : 0 < ht.capacity := by omega
  have hr : k.toNat % ht.capacity < ht.capacity := Nat.mod_lt _ hC
  have hrun := insert_loop_run ht k (k.toNat % ht.capacity) hC d 0 fuel hf (by omega)
    (fun j _ hj => hoth j (by omega)) e (by rw [Nat.zero_add]; exact he) hne
  rw [Nat.add_zero, Nat.mod_eq_of_lt hr, Nat.zero_add] at hrun
  unfold HT_Insert
  rw [if_pos hlen, h_nonneg hk0 hk hC]
  simp only
  have hz : ((0 : Nat) : Int) = 0 := rfl
  rw [hz] at hrun
  rw [hrun]
  by_cases h0 : 0 ≤ e.id
  · rw [if_pos h0, if_pos h0]
  · rw [if_neg h0, if_neg h0]
    simp only [Int.toNat_ofNat]

/-- What a returning call of `HT_Insert` did. -/
theorem HT_Insert_ret (ht ht' : Hash_table F) (k : Int) (v : F) (b : Bool) (fuel : Nat)
    (hk0 : 0 ≤ k) (hk : k ≤ INT_MAX) (hins : HT_Insert fuel ht k v = .ret (b, ht')) :
    ht.len < ht.capacity ∧
    ∃ d e, d < fuel ∧ k.toNat % ht.capacity + d ≤ 2147483647 ∧
      (∀ j, j < d →
        ∃ e, ht.table[(k.toNat % ht.capacity + j) % ht.capacity]? = some e ∧ 0 ≤ e.id ∧ e.id ≠ k) ∧
      ht.table[(k.toNat % ht.capacity + d) % ht.capacity]? = some e ∧ ¬ (0 ≤ e.id ∧ e.id ≠ k) ∧
      (b, ht') = (if 0 ≤ e.id then (false, ht) else
        (true, { table := ht.table.set ((k.toNat % ht.capacity + d) % ht.capacity) ⟨k, v⟩,
                 capacity := ht.capacity,
                 len := (ht.len + 1) % 18446744073709551616 })) := by
  unfold HT_Insert at hins
  by_cases hlen : ht.len < ht.capacity
  · refine ⟨hlen, ?_⟩
    have hC : 0 < ht.capacity := by omega
    have hr : k.toNat % ht.capacity < ht.capacity := Nat.mod_lt _ hC
    have hle : k.toNat % ht.capacity ≤ 2147483647 :=
      le_trans (Nat.mod_le _ _) (by unfold INT_MAX at hk; omega)
    rw [if_pos hlen, h_nonneg hk0 hk hC] at hins
    simp only at hins
    have hz : (0 : Int) = ((0 : Nat) : Int) := rfl
    have hp : ((k.toNat % ht.capacity : Nat) : Int)
        = (((k.toNat % ht.capacity + 0) % ht.capacity : Nat) : Int) := by
      rw [Nat.add_zero, Nat.mod_eq_of_lt hr]
    cases hloop : HT_Insert_loop ht k ((k.toNat % ht.capacity : Nat) : Int) fuel
        ((k.toNat % ht.capacity : Nat) : Int) 0 with
    | ret res =>
      have hloop2 := hloop
      rw [hz] at hloop2
      nth_rewrite 2 [hp] at hloop2
      obtain ⟨d, e, hd, hbd, hoth, he, hne, hres⟩ :=
        insert_loop_ret ht k _ fuel 0 res (by omega) hloop2
      rw [Nat.zero_add] at hbd he hres
      refine ⟨d, e, hd, hbd, fun j hj => hoth j (by omega) (by omega), he, hne, ?_⟩
      rw [hloop] at hins
      by_cases h0 : 0 ≤ e.id
      · rw [if_pos h0] at hres ⊢
        subst hres
        simp only at hins
        injection hins with hins
        exact hins.symm
      · rw [if_neg h0] at hres ⊢
        subst hres
        simp only [Int.toNat_ofNat] at hins
        injection hins with hins
        exact hins.symm
    | assertFail => rw [hloop] at hins; exact Outcome.noConfusion hins
    | ub => rw [hloop] at hins; exact Outcome.noConfusion hins
    | noFuel => rw [hloop] at hins; exact Outcome.noConfusion hins
  · rw [if_neg hlen] at hins
    exact Outcome.noConfusion hins

theorem h_zero (k : Int) : h k 0 = (.ub : Outcome Int) := by
  unfold h
  rw [if_pos rfl]

/-- Running `HT_Search`: with `d` the first offset on the probe sequence of `k` whose slot
holds `k` or is Empty, the call reports what that slot holds. -/
theorem HT_Search_run (ht : Hash_table F) (k : Int) (s0 : F) (hk0 : 0 ≤ k) (hk : k ≤ INT_MAX)
    (hlen : 0 < ht.len) (hC : 0 < ht.capacity) (d fuel : Nat) (hf : d < fuel)
    (hb : k.toNat % ht.capacity + d ≤ 2147483647)
    (hoth : ∀ j, j < d →
      ∃ e, ht.table[(k.toNat % ht.capacity + j) % ht.capacity]? = some e ∧
        e.id ≠ k ∧ e.id ≠ EMPTY_CELL)
    (e : Entry_table F) (he : ht.table[(k.toNat % ht.capacity + d) % ht.capacity]? = some e)
    (hstop : e.id = k ∨ e.id = EMPTY_CELL) :
    HT_Search fuel ht k s0 = .ret (if e.id = k then (true, e.salary) else (false, s0)) := by
  have hr : k.toNat % ht.capacity < ht.capacity := Nat.mod_lt _ hC
  unfold HT_Search
  rw [if_pos hlen, h_nonneg hk0 hk hC]
  simp only [cellAt_ofNat]
  cases d with
  | zero =>
    rw [Nat.add_zero, Nat.mod_eq_of_lt hr] at he
    rw [he]
    simp only
    by_cases hke : e.id = k
    · rw [if_pos hke, if_pos hke]
      unfold HT_Search_finish
      simp only [cellAt_ofNat, if_true]
      rw [he]
    · have hE : e.id = EMPTY_CELL := hstop.resolve_left hke
      rw [if_neg hke, if_pos hE, if_neg hke]
      unfold HT_Search_finish
      simp
  | succ d =>
    obtain ⟨e0, he0, hk0', hE0⟩ := hoth 0 (by omega)
    rw [Nat.add_zero, Nat.mod_eq_of_lt hr] at he0
    rw [he0]
    simp only
    rw [if_neg hk0', if_neg hE0]
    have hrun := search_loop_run ht k (k.toNat % ht.capacity) hC d 0 fuel (by omega) (by omega)
      (fun j _ hj => hoth j (by omega)) e (by rw [Nat.zero_add]; exact he) hstop
    rw [Nat.add_zero, Nat.mod_eq_of_lt hr, Nat.zero_add] at hrun
    have hz : ((0 : Nat) : Int) = 0 := rfl
    rw [hz] at hrun
    rw [hrun]
    simp only
    unfold HT_Search_finish
    simp only [cellAt_ofNat]
    rw [he]
    by_cases hke : e.id = k
    · simp [hke]
    · simp [hke]

/-- What a returning call of `HT_Search` went through. -/
theorem HT_Search_ret (ht : Hash_table F) (k : Int) (s0 : F) (res : Bool × F) (fuel : Nat)
    (hk0 : 0 ≤ k) (hk : k ≤ INT_MAX) (hs : HT_Search fuel ht k s0 = .ret res) :
    0 < ht.len ∧ 0 < ht.capacity ∧
    ∃ d e, k.toNat % ht.capacity + d ≤ 2147483647 ∧
      (∀ j, j < d →
        ∃ e, ht.table[(k.toNat % ht.capacity + j) % ht.capacity]? = some e ∧
          e.id ≠ k ∧ e.id ≠ EMPTY_CELL) ∧
      ht.table[(k.toNat % ht.capacity + d) % ht.capacity]? = some e ∧
      (e.id = k ∨ e.id = EMPTY_CELL) ∧
      res = (if e.id = k then (true, e.salary) else (false, s0)) := by
  unfold HT_Search at hs
  by_cases hlen : 0 < ht.len
  · refine ⟨hlen, ?_⟩
    rw [if_pos hlen] at hs
    by_cases hC : 0 < ht.capacity
    · refine ⟨hC, ?_⟩
      have hr : k.toNat % ht.capacity < ht.capacity := Nat.mod_lt _ hC
      have hle : k.toNat % ht.capacity ≤ 2147483647 :=
        le_trans (Nat.mod_le _ _) (by unfold INT_MAX at hk; omega)
      rw [h_nonneg hk0 hk hC] at hs
      simp only [cellAt_ofNat] at hs
      split at hs
      · exact Outcome.noConfusion hs
      · rename_i e0 he0
        have he0' : ht.table[(k.toNat % ht.capacity + 0) % ht.capacity]? = some e0 := by
          rw [Nat.add_zero, Nat.mod_eq_of_lt hr]; exact he0
        by_cases hke : e0.id = k
        · rw [if_pos hke] at hs
          unfold HT_Search_finish at hs
          simp only [cellAt_ofNat, if_true] at hs
          rw [he0] at hs
          simp only at hs
          injection hs with hs
          exact ⟨0, e0, by omega, fun j hj => by omega, he0', Or.inl hke,
            by rw [if_pos hke]; exact hs.symm⟩
        · rw [if_neg hke] at hs
          by_cases hE : e0.id = EMPTY_CELL
          · rw [if_pos hE] at hs
            unfold HT_Search_finish at hs
            simp only [Bool.false_eq_true, if_false] at hs
            injection hs with hs
            exact ⟨0, e0, by omega, fun j hj => by omega, he0', Or.inr hE,
              by rw [if_neg hke]; exact hs.symm⟩
          · rw [if_neg hE] at hs
            have hz : (0 : Int) = ((0 : Nat) : Int) := rfl
            have hp : ((k.toNat % ht.capacity : Nat) : Int)
                = (((k.toNat % ht.capacity + 0) % ht.capacity : Nat) : Int) := by
              rw [Nat.add_zero, Nat.mod_eq_of_lt hr]
            cases hloop : HT_Search_loop ht k ((k.toNat % ht.capacity : Nat) : Int) fuel
                ((k.toNat % ht.capacity : Nat) : Int) 0 false with
            | ret pf =>
              obtain ⟨p, fnd⟩ := pf
              have hloop2 := hloop
              rw [hz] at hloop2
              nth_rewrite 2 [hp] at hloop2
              obtain ⟨d, e, hd, hbd, hoth, he, hstop, hpe, hfe⟩ :=
                search_loop_ret ht k _ fuel 0 p fnd (by omega)
                  (fun x hx => by rw [he0'] at hx; injection hx with hx; subst hx; exact hke)
                  hloop2
              rw [Nat.zero_add] at hbd he hpe
              refine ⟨d, e, hbd, fun j hj => hoth j (by omega) (by omega), he, hstop, ?_⟩
              rw [hloop] at hs
              simp only at hs
              unfold HT_Search_finish at hs
              subst hpe
              simp only [cellAt_ofNat] at hs
              rw [he] at hs
              by_cases hke' : e.id = k
              · rw [if_pos hke'] at hfe ⊢
                subst hfe
                simp only [if_true] at hs
                injection hs with hs
                exact hs.symm
              · rw [if_neg hke'] at hfe ⊢
                subst hfe
                simp only [Bool.false_eq_true, if_false] at hs
                injection hs with hs
                exact hs.symm
            | assertFail => rw [hloop] at hs; exact Outcome.noConfusion hs
            | ub => rw [hloop] at hs; exact Outcome.noConfusion hs
            | noFuel => rw [hloop] at hs; exact Outcome.noConfusion hs
    · have hC0 : ht.capacity = 0 := by omega
      rw [hC0, h_zero] at hs
      exact Outcome.noConfusion hs
  · rw [if_neg hlen] at hs
    exact Outcome.noConfusion hs

/-! ## The initial table and the invariant of reachable tables -/

theorem addInt_one {i : Int} (h0 : 0 ≤ i) (h1 : i + 1 ≤ 2147483647) :
    addInt i 1 = .ret (i + 1) := by
  unfold addInt INT_MIN INT_MAX
  have : (-2147483648 : Int) ≤ i + 1 ∧ i + 1 ≤ 2147483647 := by omega
  rw [if_pos this]

theorem addInt_one_overflow {i : Int} (h1 : ¬ i + 1 ≤ 2147483647) :
    addInt i 1 = .ub := by
  unfold addInt INT_MIN INT_MAX
  have : ¬ ((-2147483648 : Int) ≤ i + 1 ∧ i + 1 ≤ 2147483647) := by omega
  rw [if_neg this]

/-- What a returning initialisation loop of `HT_New` did: it stopped at `i = capacity`, which
therefore fits in an `int`, and every slot from the starting index on is Empty. -/
theorem HT_New_loop_ret [Zero F] (C : Nat) :
    ∀ (fuel : Nat) (i : Int) (t t' : List (Entry_table F)), 0 ≤ i → i ≤ C → i ≤ 2147483647 →
      t.length = C → HT_New_loop C fuel i t = .ret t' →
      C ≤ 2147483647 ∧ t'.length = C ∧ (∀ p : Nat, (p : Int) < i → t'[p]? = t[p]?) ∧
        (∀ p : Nat, i ≤ (p : Int) → p < C → t'[p]? = some ⟨EMPTY_CELL, 0⟩) := by
  intro fuel
  induction fuel with
  | zero => intro i t t' _ _ _ _ hl; simp [HT_New_loop] at hl
  | succ f ih =>
    intro i t t' h0 hiC hi ht hl
    unfold HT_New_loop at hl
    have hsz : toSizeT i = i.toNat := by unfold toSizeT; omega
    rw [hsz] at hl
    by_cases hlt : i.toNat < C
    · rw [if_pos hlt] at hl
      split at hl
      · exact Outcome.noConfusion hl
      · by_cases hi' : i + 1 ≤ 2147483647
        · rw [addInt_one h0 hi'] at hl
          simp only at hl
          obtain ⟨h1, h2, h3, h4⟩ := ih (i + 1) _ t' (by omega) (by omega) hi' (by simp [ht]) hl
          refine ⟨h1, h2, ?_, ?_⟩
          · intro p hp
            rw [h3 p (by omega), List.getElem?_set_ne (by omega)]
          · intro p hp1 hp2
            by_cases hpi : (p : Int) = i
            · have hpn : i.toNat = p := by omega
              rw [h3 p (by omega), hpn, List.getElem?_set_self (by omega)]
            · exact h4 p (by omega) hp2
        · rw [addInt_one_overflow hi'] at hl
          exact Outcome.noConfusion hl
    · rw [if_neg hlt] at hl
      injection hl with hl
      subst hl
      exact ⟨by omega, ht, fun p _ => rfl, fun p h1 h2 => by omega⟩

/-- The table a returning `HT_New` hands out. -/
theorem HT_New_ret [Zero F] (C fuel : Nat) (block : List (Entry_table F)) (ht : Hash_table F)
    (hblock : block.length = C) (hnew : HT_New fuel true (some block) C = .ret (some ht)) :
    C ≤ 2147483647 ∧ ht = ⟨List.replicate C ⟨EMPTY_CELL, 0⟩, C, 0⟩ := by
  unfold HT_New at hnew
  simp only [if_true] at hnew
  cases hloop : HT_New_loop C fuel 0 block with
  | ret t' =>
    rw [hloop] at hnew
    simp only at hnew
    injection hnew with hnew
    injection hnew with hnew
    subst hnew
    obtain ⟨h1, h2, _, h4⟩ :=
      HT_New_loop_ret C fuel 0 block t' (le_refl _) (by omega) (by omega) hblock hloop
    refine ⟨h1, ?_⟩
    congr 1
    apply List.ext_getElem?
    intro p
    by_cases hp : p < C
    · rw [h4 p (by omega) hp, List.getElem?_replicate_of_lt hp]
    · rw [List.getElem?_eq_none (by omega), List.getElem?_eq_none (by simp; omega)]
  | assertFail => rw [hloop] at hnew; exact Outcome.noConfusion hnew
  | ub => rw [hloop] at hnew; exact Outcome.noConfusion hnew
  | noFuel => rw [hloop] at hnew; exact Outcome.noConfusion hnew

theorem countP_set_gain {α : Type} (p : α → Bool) (a : α) :
    ∀ (l : List α) (i : Nat) (x : α), l[i]? = some x → p x = false → p a = true →
      List.countP p (l.set i a) = List.countP p l + 1 := by
  intro l
  induction l with
  | nil => intro i x hx; simp at hx
  | cons y ys ih =>
    intro i x hx hold hnew
    cases i with
    | zero =>
      simp only [List.getElem?_cons_zero, Option.some.injEq] at hx
      subst hx
      simp [List.countP_cons, hold, hnew]
    | succ i =>
      simp only [List.getElem?_cons_succ] at hx
      simp only [List.set_cons_succ, List.countP_cons]
      rw [ih i x hx hold hnew]
      omega

theorem getElem?_lt {α : Type} {l : List α} {i : Nat} {x : α} (h : l[i]? = some x) :
    i < l.length := by
  by_contra hge
  rw [List.getElem?_eq_none (by omega)] at h
  exact Option.noConfusion h

theorem Inv_new [Zero F] {C : Nat} (hC : C ≤ 2147483647) :
    Inv C (⟨List.replicate C ⟨EMPTY_CELL, 0⟩, C, 0⟩ : Hash_table F) where
  cap := rfl
  size := by simp
  cmax := hC
  lenEq := by
    unfold occupiedCount
    simp [List.countP_replicate, EMPTY_CELL]
  ids := by
    intro p e he
    simp only [List.getElem?_replicate] at he
    split at he
    · injection he with he
      subst he
      exact Or.inl rfl
    · exact Option.noConfusion he
  chain := by
    intro p e he h0
    simp only [List.getElem?_replicate] at he
    split at he
    · injection he with he
      subst he
      simp [EMPTY_CELL] at h0
    · exact Option.noConfusion he

/-- The invariant survives every returning call of `HT_Insert` with a non-negative `int` key. -/
theorem Inv_insert {C : Nat} (ht ht' : Hash_table F) (k : Int) (v : F) (b : Bool) (fuel : Nat)
    (hinv : Inv C ht) (hk0 : 0 ≤ k) (hk : k ≤ INT_MAX)
    (hins : HT_Insert fuel ht k v = .ret (b, ht')) : Inv C ht' := by
  obtain ⟨hlen, d, e, hd, hb, hoth, he, hne, hres⟩ := HT_Insert_ret ht ht' k v b fuel hk0 hk hins
  by_cases h0 : 0 ≤ e.id
  · rw [if_pos h0] at hres
    injection hres with _ hht
    subst hht
    exact hinv
  · rw [if_neg h0] at hres
    injection hres with _ hht
    subst hht
    have hcap := hinv.cap
    have hsize := hinv.size
    have hcmax := hinv.cmax
    have hC : 0 < C := by omega
    rw [hcap] at he hoth hb
    have hplt := getElem?_lt he
    -- a slot that holds a key is not the slot written
    have hne_p : ∀ (q : Nat) (x : Entry_table F), ht.table[q]? = some x → 0 ≤ x.id →
        (k.toNat % C + d) % C ≠ q := by
      intro q x hx hx0 heq
      rw [heq, hx] at he
      injection he with he
      subst he
      exact h0 hx0
    refine ⟨hcap, by simp [hsize], hcmax, ?_, ?_, ?_⟩
    · -- len
      unfold occupiedCount
      simp only [hcap]
      rw [countP_set_gain _ _ _ _ e he (by simpa using h0) (by simpa using hk0)]
      have := hinv.lenEq
      unfold occupiedCount at this
      omega
    · -- ids
      intro q x hx
      simp only [hcap] at hx
      by_cases hq : (k.toNat % C + d) % C = q
      · subst hq
        rw [List.getElem?_set_self hplt] at hx
        injection hx with hx
        subst hx
        exact Or.inr ⟨hk0, hk⟩
      · rw [List.getElem?_set_ne hq] at hx
        exact hinv.ids q x hx
    · -- chain
      intro q x hx hx0
      simp only [hcap] at hx ⊢
      by_cases hq : (k.toNat % C + d) % C = q
      · rw [← hq, List.getElem?_set_self hplt] at hx
        injection hx with hx
        subst hx
        simp only
        have hdC : d < C := by
          by_contra hge
          obtain ⟨x, hx, hx0, _⟩ := hoth (d - C) (by omega)
          have : (k.toNat % C + (d - C)) % C = (k.toNat % C + d) % C := by
            rw [← Nat.add_mod_right (k.toNat % C + (d - C)) C]
            congr 1
            omega
          exact hne_p _ x hx hx0 this.symm
        refine ⟨d, hdC, hq.symm, ?_⟩
        intro j hj
        obtain ⟨x, hx, hx0, hxk⟩ := hoth j hj
        exact ⟨x, by rw [List.getElem?_set_ne (hne_p _ x hx hx0)]; exact hx, hx0, hxk⟩
      · rw [List.getElem?_set_ne hq] at hx
        obtain ⟨j, hj, hqj, hch⟩ := hinv.chain q x hx hx0
        refine ⟨j, hj, hqj, ?_⟩
        intro j' hj'
        obtain ⟨y, hy, hy0, hyk⟩ := hch j' hj'
        exact ⟨y, by rw [List.getElem?_set_ne (hne_p _ y hy hy0)]; exact hy, hy0, hyk⟩

/-- Every reachable table satisfies the invariant. -/
theorem Reachable.inv [Zero F] {C : Nat} {ht : Hash_table F} (hr : Reachable C ht) :
    Inv C ht := by
  induction hr with
  | new fuel block ht hblock hnew =>
    obtain ⟨hC, rfl⟩ := HT_New_ret C fuel block ht hblock hnew
    exact Inv_new hC
  | insert fuel ht ht' k v b _ hk0 hk hins ih => exact Inv_insert ht ht' k v b fuel ih hk0 hk hins

/-! ## No signed overflow on the probe sequences of reachable tables -/

theorem add_mod_cases (C a : Nat) (h : a < 2 * C) :
    (a < C ∧ a % C = a) ∨ (C ≤ a ∧ a % C = a - C) := by
  by_cases hlt : a < C
  · exact Or.inl ⟨hlt, Nat.mod_eq_of_lt hlt⟩
  · refine Or.inr ⟨by omega, ?_⟩
    rw [Nat.mod_eq_sub_mod (by omega), Nat.mod_eq_of_lt (by omega)]

/-- In a table that satisfies the invariant, has an unoccupied slot `f` and is so large that
`capacity + f` exceeds `INT_MAX`, every key stored above `f` sits in the slot of its own
number. -/
theorem key_is_index {C : Nat} (ht : Hash_table F) (hinv : Inv C ht) (f : Nat)
    (ef : Entry_table F) (hf : ht.table[f]? = some ef) (hf0 : ¬ 0 ≤ ef.id)
    (hbig : 2147483648 ≤ C + f) :
    ∀ s, f < s → ∀ e, ht.table[s]? = some e → 0 ≤ e.id → e.id = (s : Int) := by
  have hsize := hinv.size
  have hfC : f < C := by have := getElem?_lt hf; omega
  intro s
  induction s using Nat.strong_induction_on with
  | _ s ih =>
    intro hfs e he he0
    have hsC : s < C := by have := getElem?_lt he; omega
    obtain ⟨j, hjC, hsj, hch⟩ := hinv.chain s e he he0
    have hrC : e.id.toNat % C < C := Nat.mod_lt _ (by omega)
    -- the slot `f` is not on the chain
    have hoff : ∀ j', j' < j → (e.id.toNat % C + j') % C ≠ f := by
      intro j' hj' heq
      obtain ⟨x, hx, hx0, _⟩ := hch j' hj'
      rw [heq, hf] at hx
      injection hx with hx
      subst hx
      exact hf0 hx0
    -- so the home of the key lies in `(f, s]`
    have hhome : f < e.id.toNat % C ∧ e.id.toNat % C + j = s := by
      rcases add_mod_cases C (e.id.toNat % C + j) (by omega) with ⟨h1, h2⟩ | ⟨h1, h2⟩
      · rw [h2] at hsj
        refine ⟨?_, hsj.symm⟩
        by_contra hle
        have hj' : f - e.id.toNat % C < j := by omega
        apply hoff _ hj'
        rw [show e.id.toNat % C + (f - e.id.toNat % C) = f by omega]
        exact Nat.mod_eq_of_lt hfC
      · rw [h2] at hsj
        exfalso
        have hj' : C - e.id.toNat % C + f < j := by omega
        apply hoff _ hj'
        rw [show e.id.toNat % C + (C - e.id.toNat % C + f) = f + C by omega,
          Nat.add_mod_right]
        exact Nat.mod_eq_of_lt hfC
    -- the key equals its home, larger keys with the same home do not fit in an int
    have hkey : e.id.toNat = e.id.toNat % C := by
      have hdm := Nat.div_add_mod e.id.toNat C
      have hq : e.id.toNat / C = 0 := by
        by_contra hq
        have hmul : C * 1 ≤ C * (e.id.toNat / C) :=
          Nat.mul_le_mul_left C (Nat.pos_of_ne_zero hq)
        rcases hinv.ids s e he with hE | ⟨_, hmax⟩
        · unfold EMPTY_CELL at hE; omega
        · unfold INT_MAX at hmax; omega
      rw [hq] at hdm
      omega
    by_cases hj0 : j = 0
    · omega
    · exfalso
      obtain ⟨x, hx, hx0, hxk⟩ := hch 0 (by omega)
      rw [Nat.add_zero, Nat.mod_eq_of_lt hrC] at hx
      have := ih (e.id.toNat % C) (by omega) hhome.1 x hx hx0
      apply hxk
      omega

/-- No signed overflow on a probe sequence of a reachable table: when the table satisfies the
invariant and has an unoccupied slot, the offsets a scan for a non-negative `int` key goes
through stay within `INT_MAX` once added to the home slot. -/
theorem probe_no_overflow {C : Nat} (ht : Hash_table F) (hinv : Inv C ht) (f : Nat)
    (ef : Entry_table F) (hf : ht.table[f]? = some ef) (hf0 : ¬ 0 ≤ ef.id)
    (k : Int) (hk0 : 0 ≤ k) (hk : k ≤ INT_MAX) (d : Nat)
    (hoth : ∀ j, j < d →
      ∃ e, ht.table[(k.toNat % C + j) % C]? = some e ∧ 0 ≤ e.id ∧ e.id ≠ k) :
    d < C ∧ k.toNat % C + d ≤ 2147483647 := by
  have hsize := hinv.size
  have hcmax := hinv.cmax
  have hfC : f < C := by have := getElem?_lt hf; omega
  have hrC : k.toNat % C < C := Nat.mod_lt _ (by omega)
  have hoff : ∀ j', j' < d → (k.toNat % C + j') % C ≠ f := by
    intro j' hj' heq
    obtain ⟨x, hx, hx0, _⟩ := hoth j' hj'
    rw [heq, hf] at hx
    injection hx with hx
    subst hx
    exact hf0 hx0
  by_cases hfr : k.toNat % C ≤ f
  · have hd : d ≤ f - k.toNat % C := by
      by_contra hlt
      apply hoff (f - k.toNat % C) (by omega)
      rw [show k.toNat % C + (f - k.toNat % C) = f by omega]
      exact Nat.mod_eq_of_lt hfC
    omega
  · have hd : d ≤ C - k.toNat % C + f := by
      by_contra hlt
      apply hoff (C - k.toNat % C + f) (by omega)
      rw [show k.toNat % C + (C - k.toNat % C + f) = f + C by omega, Nat.add_mod_right]
      exact Nat.mod_eq_of_lt hfC
    refine ⟨by omega, ?_⟩
    by_contra hov
    have hbig : 2147483648 ≤ C + f := by omega
    obtain ⟨x, hx, hx0, hxk⟩ := hoth 0 (by omega)
    rw [Nat.add_zero, Nat.mod_eq_of_lt hrC] at hx
    have hxr := key_is_index ht hinv f ef hf hf0 hbig (k.toNat % C) (by omega) x hx hx0
    have hdm := Nat.div_add_mod k.toNat C
    have hq : k.toNat / C ≠ 0 := by
      intro hq
      rw [hq] at hdm
      apply hxk
      omega
    have hmul : C * 1 ≤ C * (k.toNat / C) := Nat.mul_le_mul_left C (Nat.pos_of_ne_zero hq)
    unfold INT_MAX at hk
    omega

/-! ## Calls on reachable tables return -/

/-- A table whose `len` counts its Occupied slots and is below the number of slots has a slot
that is not Occupied. -/
theorem exists_free_slot {C : Nat} (ht : Hash_table F) (hinv : Inv C ht) (hlen : ht.len < C) :
    ∃ (f : Nat) (ef : Entry_table F), ht.table[f]? = some ef ∧ ¬ 0 ≤ ef.id := by
  have hsize := hinv.size
  have hcount := hinv.lenEq
  unfold occupiedCount at hcount
  by_contra hall
  have : List.countP (fun e : Entry_table F => decide (0 ≤ e.id)) ht.table = ht.table.length := by
    rw [List.countP_eq_length]
    intro a ha
    obtain ⟨i, hi, hia⟩ := List.getElem_of_mem ha
    by_contra hneg
    apply hall
    refine ⟨i, a, ?_, by simpa using hneg⟩
    rw [List.getElem?_eq_getElem hi, hia]
  omega

/-- A scan stops somewhere: when some slot of the table satisfies `stop`, every probe sequence
has a first offset, below the capacity, whose slot satisfies `stop`. -/
theorem exists_first_stop {C : Nat} (ht : Hash_table F) (hsize : ht.table.length = C)
    (stop : Entry_table F → Prop) (f : Nat) (ef : Entry_table F)
    (hf : ht.table[f]? = some ef) (hstop : stop ef) (r : Nat) (hr : r < C) :
    ∃ (d : Nat) (e : Entry_table F), d < C ∧
      (∀ j, j < d → ∃ e, ht.table[(r + j) % C]? = some e ∧ ¬ stop e) ∧
      ht.table[(r + d) % C]? = some e ∧ stop e := by
  classical
  have hfC : f < C := by have := getElem?_lt hf; omega
  have hex : ∃ d, d < C ∧ ∃ e, ht.table[(r + d) % C]? = some e ∧ stop e := by
    by_cases hfr : r ≤ f
    · refine ⟨f - r, by omega, ef, ?_, hstop⟩
      rw [show r + (f - r) = f by omega, Nat.mod_eq_of_lt hfC]
      exact hf
    · refine ⟨C - r + f, by omega, ef, ?_, hstop⟩
      rw [show r + (C - r + f) = f + C by omega, Nat.add_mod_right, Nat.mod_eq_of_lt hfC]
      exact hf
  obtain ⟨hdC, e, he, hse⟩ := Nat.find_spec hex
  refine ⟨Nat.find hex, e, hdC, ?_, he, hse⟩
  intro j hj
  have hmin := Nat.find_min hex hj
  have hlt : (r + j) % C < ht.table.length := by
    rw [hsize]; exact Nat.mod_lt _ (by omega)
  refine ⟨ht.table[(r + j) % C], List.getElem?_eq_getElem hlt, ?_⟩
  intro hx
  exact hmin ⟨by omega, _, List.getElem?_eq_getElem hlt, hx⟩

/-- Inserting a key that is stored: the call returns `false` and leaves the table alone. -/
theorem insert_stored {C : Nat} (ht : Hash_table F) (hinv : Inv C ht) (hlen : ht.len < C)
    (q : Nat) (e : Entry_table F) (hq : ht.table[q]? = some e) (he0 : 0 ≤ e.id) (v : F)
    (fuel : Nat) (hfuel : C < fuel) : HT_Insert fuel ht e.id v = .ret (false, ht) := by
  have hcap := hinv.cap
  obtain ⟨f, ef, hf, hf0⟩ := exists_free_slot ht hinv hlen
  have hk : e.id ≤ INT_MAX := by
    rcases hinv.ids q e hq with hE | ⟨_, h⟩
    · unfold EMPTY_CELL at hE; omega
    · exact h
  obtain ⟨j, hjC, hqj, hch⟩ := hinv.chain q e hq he0
  obtain ⟨_, hb⟩ := probe_no_overflow ht hinv f ef hf hf0 e.id he0 hk j hch
  have hrun := HT_Insert_run ht e.id v he0 hk (by omega) j fuel (by omega)
    (by rw [hcap]; exact hb) (by rw [hcap]; exact hch) e (by rw [hcap, ← hqj]; exact hq)
    (fun hx => hx.2 rfl)
  rw [if_pos he0] at hrun
  exact hrun

/-- Searching a key that is stored: the call returns `true` with the value stored with it. -/
theorem search_stored {C : Nat} (ht : Hash_table F) (hinv : Inv C ht) (hlen : ht.len < C)
    (hlen0 : 0 < ht.len)
    (q : Nat) (e : Entry_table F) (hq : ht.table[q]? = some e) (he0 : 0 ≤ e.id) (s0 : F)
    (fuel : Nat) (hfuel : C < fuel) : HT_Search fuel ht e.id s0 = .ret (true, e.salary) := by
  have hcap := hinv.cap
  obtain ⟨f, ef, hf, hf0⟩ := exists_free_slot ht hinv hlen
  have hk : e.id ≤ INT_MAX := by
    rcases hinv.ids q e hq with hE | ⟨_, h⟩
    · unfold EMPTY_CELL at hE; omega
    · exact h
  obtain ⟨j, hjC, hqj, hch⟩ := hinv.chain q e hq he0
  obtain ⟨_, hb⟩ := probe_no_overflow ht hinv f ef hf hf0 e.id he0 hk j hch
  have hrun := HT_Search_run ht e.id s0 he0 hk hlen0 (by omega) j fuel (by omega)
    (by rw [hcap]; exact hb)
    (by
      rw [hcap]
      intro j' hj'
      obtain ⟨x, hx, hx0, hxk⟩ := hch j' hj'
      exact ⟨x, hx, hxk, by unfold EMPTY_CELL; omega⟩)
    e (by rw [hcap, ← hqj]; exact hq) (Or.inl rfl)
  rw [if_pos rfl] at hrun
  exact hrun

/-- Inserting a key that is not stored, with room left: the call returns `true` and writes
the pair into a slot that was not Occupied. -/
theorem insert_fresh {C : Nat} (ht : Hash_table F) (hinv : Inv C ht) (hlen : ht.len < C)
    (k : Int) (hk0 : 0 ≤ k) (hk : k ≤ INT_MAX)
    (hnew : ∀ (q : Nat) (e : Entry_table F), ht.table[q]? = some e → e.id ≠ k) (v : F)
    (fuel : Nat) (hfuel : C < fuel) :
    ∃ (p : Nat) (e : Entry_table F), ht.table[p]? = some e ∧ ¬ 0 ≤ e.id ∧
      HT_Insert fuel ht k v =
        .ret (true, ⟨ht.table.set p ⟨k, v⟩, ht.capacity, ht.len + 1⟩) := by
  have hcap := hinv.cap
  have hcmax := hinv.cmax
  obtain ⟨f, ef, hf, hf0⟩ := exists_free_slot ht hinv hlen
  have hrC : k.toNat % C < C := Nat.mod_lt _ (by omega)
  obtain ⟨d, e, _, hoth', he, hne⟩ := exists_first_stop ht hinv.size
    (fun e => ¬ (0 ≤ e.id ∧ e.id ≠ k)) f ef hf (fun hx => hf0 hx.1) _ hrC
  have hoth : ∀ j, j < d →
      ∃ e, ht.table[(k.toNat % C + j) % C]? = some e ∧ 0 ≤ e.id ∧ e.id ≠ k := by
    intro j hj
    obtain ⟨x, hx, hnx⟩ := hoth' j hj
    exact ⟨x, hx, not_not.mp hnx⟩
  obtain ⟨hdC, hb⟩ := probe_no_overflow ht hinv f ef hf hf0 k hk0 hk d hoth
  have h0 : ¬ 0 ≤ e.id := fun h0 => hne ⟨h0, hnew _ e he⟩
  have hrun := HT_Insert_run ht k v hk0 hk (by omega) d fuel (by omega)
    (by rw [hcap]; exact hb) (by rw [hcap]; exact hoth) e (by rw [hcap]; exact he) hne
  rw [if_neg h0] at hrun
  refine ⟨(k.toNat % C + d) % C, e, he, h0, ?_⟩
  rw [hrun, hcap]
  have : (ht.len + 1) % 18446744073709551616 = ht.len + 1 := by omega
  rw [this]

/-! ## Clients and overflowing searches -/

theorem insertAll_fresh {C : Nat} (fuel : Nat) (hfuel : C < fuel) :
    ∀ (kvs : List (Int × F)) (ht : Hash_table F), Inv C ht → ht.len + kvs.length + 1 ≤ C →
      (kvs.map Prod.fst).Nodup → (∀ kv ∈ kvs, 0 ≤ kv.1 ∧ kv.1 ≤ INT_MAX) →
      (∀ kv ∈ kvs, ∀ (q : Nat) (e : Entry_table F), ht.table[q]? = some e → e.id ≠ kv.1) →
      ∃ ht', insertAll fuel ht kvs = .ret (List.replicate kvs.length true, ht') ∧
        Inv C ht' ∧ ht'.len = ht.len + kvs.length ∧
        (∀ kv ∈ kvs, ∃ q : Nat, ht'.table[q]? = some (⟨kv.1, kv.2⟩ : Entry_table F)) ∧
        (∀ (q : Nat) (e : Entry_table F), ht.table[q]? = some e → 0 ≤ e.id →
          ht'.table[q]? = some e) := by
  intro kvs
  induction kvs with
  | nil =>
    intro ht hinv _ _ _ _
    exact ⟨ht, rfl, hinv, rfl, fun kv hkv => by simp at hkv, fun q e hq _ => hq⟩
  | cons kv rest ih =>
    intro ht hinv hlen hnd hkeys hnew
    obtain ⟨k, v⟩ := kv
    simp only [List.length_cons] at hlen
    simp only [List.map_cons, List.nodup_cons, List.mem_map, not_exists, not_and] at hnd
    obtain ⟨hk0, hk⟩ := hkeys (k, v) (List.mem_cons_self _ _)
    obtain ⟨p, e, hp, hp0, hins⟩ := insert_fresh ht hinv (by omega) k hk0 hk
      (hnew (k, v) (List.mem_cons_self _ _)) v fuel hfuel
    have hplt := getElem?_lt hp
    have hinv1 := Inv_insert ht _ k v true fuel hinv hk0 hk hins
    obtain ⟨ht', hall, hinv', hlen', hst, hold⟩ := ih _ hinv1 (by simp only; omega) hnd.2
      (fun kv' hkv' => hkeys kv' (List.mem_cons_of_mem _ hkv'))
      (by
        intro kv' hkv' q x hx
        simp only at hx
        by_cases hq : p = q
        · subst hq
          rw [List.getElem?_set_self hplt] at hx
          injection hx with hx
          subst hx
          exact fun heq => hnd.1 kv' hkv' heq.symm
        · rw [List.getElem?_set_ne hq] at hx
          exact hnew kv' (List.mem_cons_of_mem _ hkv') q x hx)
    refine ⟨ht', ?_, hinv', ?_, ?_, ?_⟩
    · simp only [insertAll, hins, hall, List.length_cons, List.replicate_succ]
    · rw [hlen']; simp only [List.length_cons]; omega
    · intro kv' hkv'
      rcases List.mem_cons.mp hkv' with heq | hmem
      · subst heq
        exact ⟨p, hold p ⟨k, v⟩ (List.getElem?_set_self hplt) hk0⟩
      · exact hst kv' hmem
    · intro q x hx hx0
      apply hold q x _ hx0
      simp only
      rw [List.getElem?_set_ne]
      · exact hx
      · intro heq
        rw [heq, hx] at hp
        injection hp with hp
        subst hp
        exact hp0 hx0

theorem advance_ub_of_overflow {C r n : Nat} (id : Int) (hb : r + n = 2147483647) :
    advance C id (r : Int) (n : Int) = .ub := by
  have hov := advance_overflow (C := C) id hb
  have hcases : ∀ (home i : Int), (∃ x, advance C id home i = .ret x) ∨
      advance C id home i = .ub := by
    intro home i
    unfold advance
    split
    · split
      · exact Or.inr rfl
      · split
        · exact Or.inl ⟨_, rfl⟩
        · exact Or.inr rfl
    · exact Or.inr rfl
  rcases hcases (r : Int) (n : Int) with ⟨x, hx⟩ | hub
  · exact absurd hx (hov x)
  · exact hub

/-- The loop of `HT_Search` runs into signed overflow when the slots at offsets `n .. n+d`
hold neither the key nor the Empty marker and `home + n + d` is `INT_MAX`. -/
theorem search_loop_overflow (ht : Hash_table F) (k : Int) (r : Nat) (hC : 0 < ht.capacity) :
    ∀ (d n fuel : Nat), d < fuel → r + (n + d) = 2147483647 →
      (∀ j, n ≤ j → j ≤ n + d →
        ∃ e, ht.table[(r + j) % ht.capacity]? = some e ∧ e.id ≠ k ∧ e.id ≠ EMPTY_CELL) →
      HT_Search_loop ht k (r : Int) fuel (((r + n) % ht.capacity : Nat) : Int) (n : Int) false
        = .ub := by
  intro d
  induction d with
  | zero =>
    intro n fuel hf hb hoth
    obtain ⟨f, rfl⟩ : ∃ f, fuel = f + 1 := ⟨fuel - 1, by omega⟩
    obtain ⟨e0, he0, hk0, hE0⟩ := hoth n (le_refl _) (by omega)
    unfold HT_Search_loop
    simp only [cellAt_ofNat]
    rw [he0]
    simp only
    rw [if_pos ⟨hE0, trivial⟩, advance_ub_of_overflow k (by omega)]
  | succ d ih =>
    intro n fuel hf hb hoth
    obtain ⟨f, rfl⟩ : ∃ f, fuel = f + 1 := ⟨fuel - 1, by omega⟩
    obtain ⟨e0, he0, hk0, hE0⟩ := hoth n (le_refl _) (by omega)
    obtain ⟨e1, he1, hk1, hE1⟩ := hoth (n + 1) (by omega) (by omega)
    unfold HT_Search_loop
    simp only [cellAt_ofNat]
    rw [he0]
    simp only
    rw [if_pos ⟨hE0, trivial⟩, advance_eq k hC (by omega)]
    simp only [cellAt_ofNat]
    rw [show r + n + 1 = r + (n + 1) by omega, he1]
    simp only
    rw [if_neg hk1]
    exact ih (n + 1) f (by omega) (by omega) (fun j hj1 hj2 => hoth j (by omega) (by omega))

/-- Operation `HT_Search` runs into signed overflow when the first `d + 1` slots on the probe
sequence of the key hold neither the key nor the Empty marker and `home + d` is `INT_MAX`. -/
theorem HT_Search_overflow (ht : Hash_table F) (k : Int) (s0 : F) (hk0 : 0 ≤ k)
    (hk : k ≤ INT_MAX) (hlen : 0 < ht.len) (hC : 0 < ht.capacity) (d fuel : Nat) (hf : d < fuel)
    (hb : k.toNat % ht.capacity + d = 2147483647)
    (hoth : ∀ j, j ≤ d →
      ∃ e, ht.table[(k.toNat % ht.capacity + j) % ht.capacity]? = some e ∧
        e.id ≠ k ∧ e.id ≠ EMPTY_CELL) :
    HT_Search fuel ht k s0 = .ub := by
  have hr : k.toNat % ht.capacity < ht.capacity := Nat.mod_lt _ hC
  unfold HT_Search
  rw [if_pos hlen, h_nonneg hk0 hk hC]
  simp only [cellAt_ofNat]
  obtain ⟨e0, he0, hk0', hE0⟩ := hoth 0 (by omega)
  rw [Nat.add_zero, Nat.mod_eq_of_lt hr] at he0
  rw [he0]
  simp only
  rw [if_neg hk0', if_neg hE0]
  have hrun := search_loop_overflow ht k (k.toNat % ht.capacity) hC d 0 fuel hf (by omega)
    (fun j _ hj => hoth j (by omega))
  rw [Nat.add_zero, Nat.mod_eq_of_lt hr] at hrun
  have hz : ((0 : Nat) : Int) = 0 := rfl
  rw [hz] at hrun
  rw [hrun]

/-! ## Further lemmas: the initialisation loop, untouched slots, overflowing tables -/

/-- The initialisation loop of `HT_New` returns when the capacity fits in an `int`: started at
index `i` it needs one round per remaining slot and one to leave. -/
theorem HT_New_loop_run [Zero F] (C : Nat) (hC : C ≤ 2147483647) :
    ∀ (n : Nat) (i : Int) (t : List (Entry_table F)), 0 ≤ i → i.toNat + n = C →
      t.length = C → ∀ fuel, n < fuel → ∃ t', HT_New_loop C fuel i t = .ret t' := by
  intro n
  induction n with
  | zero =>
    intro i t h0 hi ht fuel hf
    obtain ⟨f, rfl⟩ : ∃ f, fuel = f + 1 := ⟨fuel - 1, by omega⟩
    have hsz : toSizeT i = i.toNat := by unfold toSizeT; omega
    unfold HT_New_loop
    rw [hsz, if_neg (by omega)]
    exact ⟨t, rfl⟩
  | succ n ih =>
    intro i t h0 hi ht fuel hf
    obtain ⟨f, rfl⟩ : ∃ f, fuel = f + 1 := ⟨fuel - 1, by omega⟩
    have hsz : toSizeT i = i.toNat := by unfold toSizeT; omega
    obtain ⟨x, hcell⟩ : ∃ x, cellAt t i = some x := by
      have hlt : i.toNat < t.length := by omega
      unfold cellAt
      rw [if_pos h0]
      exact ⟨_, List.getElem?_eq_getElem hlt⟩
    unfold HT_New_loop
    rw [hsz, if_pos (by omega), hcell]
    simp only
    rw [addInt_one h0 (by omega)]
    simp only
    exact ih (i + 1) _ (by omega) (by omega) (by simp [ht]) f (by omega)

/-- The initialisation loop of `HT_New` on a capacity above `INT_MAX`: the counter reaches
`INT_MAX` with slots left, and `++i` overflows. -/
theorem HT_New_loop_overflow [Zero F] (C : Nat) (hC : 2147483647 < C) :
    ∀ (n : Nat) (i : Int) (t : List (Entry_table F)), 0 ≤ i → i.toNat + n = 2147483647 →
      t.length = C → ∀ fuel, n < fuel → HT_New_loop C fuel i t = .ub := by
  intro n
  induction n with
  | zero =>
    intro i t h0 hi ht fuel hf
    obtain ⟨f, rfl⟩ : ∃ f, fuel = f + 1 := ⟨fuel - 1, by omega⟩
    have hsz : toSizeT i = i.toNat := by unfold toSizeT; omega
    obtain ⟨x, hcell⟩ : ∃ x, cellAt t i = some x := by
      have hlt : i.toNat < t.length := by omega
      unfold cellAt
      rw [if_pos h0]
      exact ⟨_, List.getElem?_eq_getElem hlt⟩
    unfold HT_New_loop
    rw [hsz, if_pos (by omega), hcell]
    simp only
    rw [addInt_one_overflow (by omega)]
  | succ n ih =>
    intro i t h0 hi ht fuel hf
    obtain ⟨f, rfl⟩ : ∃ f, fuel = f + 1 := ⟨fuel - 1, by omega⟩
    have hsz : toSizeT i = i.toNat := by unfold toSizeT; omega
    obtain ⟨x, hcell⟩ : ∃ x, cellAt t i = some x := by
      have hlt : i.toNat < t.length := by omega
      unfold cellAt
      rw [if_pos h0]
      exact ⟨_, List.getElem?_eq_getElem hlt⟩
    unfold HT_New_loop
    rw [hsz, if_pos (by omega), hcell]
    simp only
    rw [addInt_one h0 (by omega)]
    simp only
    exact ih (i + 1) _ (by omega) (by omega) (by simp [ht]) f (by omega)

/-- Writing into a slot that is not Occupied leaves every Occupied slot as it was. -/
theorem set_keeps_occupied (t : List (Entry_table F)) (P : Nat) (x new : Entry_table F)
    (hP : t[P]? = some x) (hx : ¬ 0 ≤ x.id) (q : Nat) (y : Entry_table F)
    (hq : t[q]? = some y) (hy : 0 ≤ y.id) : (t.set P new)[q]? = some y := by
  rw [List.getElem?_set_ne]
  · exact hq
  · intro heq
    rw [heq, hq] at hP
    injection hP with hP
    subst hP
    exact hx hy

/-- Searching a key whose slot is reached through slots that hold other keys. -/
theorem search_found_at (ht : Hash_table F) (k : Int) (s0 : F) (hk0 : 0 ≤ k) (hk : k ≤ INT_MAX)
    (hlen : 0 < ht.len) (hC : 0 < ht.capacity) (d fuel : Nat) (hf : d < fuel)
    (hb : k.toNat % ht.capacity + d ≤ 2147483647)
    (hoth : ∀ j, j < d →
      ∃ e, ht.table[(k.toNat % ht.capacity + j) % ht.capacity]? = some e ∧ 0 ≤ e.id ∧ e.id ≠ k)
    (v : F) (he : ht.table[(k.toNat % ht.capacity + d) % ht.capacity]? = some ⟨k, v⟩) :
    HT_Search fuel ht k s0 = .ret (true, v) := by
  have hrun := HT_Search_run ht k s0 hk0 hk hlen hC d fuel hf hb
    (by
      intro j hj
      obtain ⟨x, hx, hx0, hxk⟩ := hoth j hj
      exact ⟨x, hx, hxk, by unfold EMPTY_CELL; omega⟩)
    ⟨k, v⟩ he (Or.inl rfl)
  rw [if_pos rfl] at hrun
  exact hrun

theorem hugeTableStored_last : hugeTableStored.table[2147483646]? = some ⟨DELETED_CELL, 0⟩ := by
  unfold hugeTableStored
  simp only
  rw [show (2147483646 : Nat) = 2147483642 + 1 + 1 + 1 + 1 by norm_num, List.getElem?_cons_succ,
    List.getElem?_cons_succ, List.getElem?_cons_succ, List.getElem?_cons_succ]
  exact List.getElem?_replicate_of_lt (by norm_num)

theorem hugeTableStored_zero : hugeTableStored.table[0]? = some ⟨DELETED_CELL, 0⟩ := by
  unfold hugeTableStored
  simp only [List.getElem?_cons_zero]

theorem hugeTableStored_one : hugeTableStored.table[1]? = some ⟨2147483646, 7⟩ := by
  unfold hugeTableStored
  simp only
  rw [show (1 : Nat) = 0 + 1 by norm_num, List.getElem?_cons_succ, List.getElem?_cons_zero]

theorem hugeTableStored_three : hugeTableStored.table[3]? = some ⟨EMPTY_CELL, 0⟩ := by
  unfold hugeTableStored
  simp only
  rw [show (3 : Nat) = 0 + 1 + 1 + 1 by norm_num, List.getElem?_cons_succ,
    List.getElem?_cons_succ, List.getElem?_cons_succ, List.getElem?_cons_zero]

theorem hugeTableStored_cap : hugeTableStored.capacity = 2147483647 := by
  unfold hugeTableStored
  simp only

theorem hugeTableStored_len : hugeTableStored.len = 1 := by
  unfold hugeTableStored
  simp only

/-- The loop of `HT_Insert` runs into signed overflow when the slots at offsets `n .. n+d` are
Occupied with other keys and `home + n + d` is `INT_MAX`. -/
theorem insert_loop_overflow (ht : Hash_table F) (k : Int) (r : Nat) (hC : 0 < ht.capacity) :
    ∀ (d n fuel : Nat), d < fuel → r + (n + d) = 2147483647 →
      (∀ j, n ≤ j → j ≤ n + d →
        ∃ e, ht.table[(r + j) % ht.capacity]? = some e ∧ 0 ≤ e.id ∧ e.id ≠ k) →
      HT_Insert_loop ht k (r : Int) fuel (((r + n) % ht.capacity : Nat) : Int) (n : Int)
        = .ub := by
  intro d
  induction d with
  | zero =>
    intro n fuel hf hb hoth
    obtain ⟨f, rfl⟩ : ∃ f, fuel = f + 1 := ⟨fuel - 1, by omega⟩
    obtain ⟨e0, he0, h0, hk0⟩ := hoth n (le_refl _) (by omega)
    unfold HT_Insert_loop
    simp only [cellAt_ofNat]
    rw [he0]
    simp only
    rw [if_pos h0, if_neg hk0, advance_ub_of_overflow k (by omega)]
  | succ d ih =>
    intro n fuel hf hb hoth
    obtain ⟨f, rfl⟩ : ∃ f, fuel = f + 1 := ⟨fuel - 1, by omega⟩
    obtain ⟨e0, he0, h0, hk0⟩ := hoth n (le_refl _) (by omega)
    unfold HT_Insert_loop
    simp only [cellAt_ofNat]
    rw [he0]
    simp only
    rw [if_pos h0, if_neg hk0, advance_eq k hC (by omega)]
    simp only
    have := ih (n + 1) f (by omega) (by omega) (fun j hj1 hj2 => hoth j (by omega) (by omega))
    rw [show r + (n + 1) = r + n + 1 by omega] at this
    exact this

/-- Operation `HT_Insert` runs into signed overflow when the first `d + 1` slots on the probe
sequence of the key are Occupied with other keys and `home + d` is `INT_MAX`. -/
theorem HT_Insert_overflow (ht : Hash_table F) (k : Int) (v : F) (hk0 : 0 ≤ k)
    (hk : k ≤ INT_MAX) (hlen : ht.len < ht.capacity) (d fuel : Nat) (hf : d < fuel)
    (hb : k.toNat % ht.capacity + d = 2147483647)
    (hoth : ∀ j, j ≤ d →
      ∃ e, ht.table[(k.toNat % ht.capacity + j) % ht.capacity]? = some e ∧
        0 ≤ e.id ∧ e.id ≠ k) :
    HT_Insert fuel ht k v = .ub := by
  have hC : 0 < ht.capacity := by omega
  have hr : k.toNat % ht.capacity < ht.capacity := Nat.mod_lt _ hC
  have hrun := insert_loop_overflow ht k (k.toNat % ht.capacity) hC d 0 fuel hf (by omega)
    (fun j _ hj => hoth j (by omega))
  rw [Nat.add_zero, Nat.mod_eq_of_lt hr] at hrun
  have hz : ((0 : Nat) : Int) = 0 := rfl
  rw [hz] at hrun
  unfold HT_Insert
  rw [if_pos hlen, h_nonneg hk0 hk hC]
  simp only
  rw [hrun]

theorem hugeTableDup_last : hugeTableDup.table[2147483646]? = some ⟨6, 0⟩ := by
  unfold hugeTableDup
  simp only
  rw [show (2147483646 : Nat) = 2147483642 + 1 + 1 + 1 + 1 by norm_num, List.getElem?_cons_succ,
    List.getElem?_cons_succ, List.getElem?_cons_succ, List.getElem?_cons_succ]
  exact List.getElem?_replicate_of_lt (by norm_num)

theorem hugeTableDup_zero : hugeTableDup.table[0]? = some ⟨0, 0⟩ := by
  unfold hugeTableDup
  simp only [List.getElem?_cons_zero]

theorem hugeTableDup_one : hugeTableDup.table[1]? = some ⟨2147483646, 5⟩ := by
  unfold hugeTableDup
  simp only
  rw [show (1 : Nat) = 0 + 1 by norm_num, List.getElem?_cons_succ, List.getElem?_cons_zero]

theorem hugeTableDup_three : hugeTableDup.table[3]? = some ⟨EMPTY_CELL, 0⟩ := by
  unfold hugeTableDup
  simp only
  rw [show (3 : Nat) = 0 + 1 + 1 + 1 by norm_num, List.getElem?_cons_succ,
    List.getElem?_cons_succ, List.getElem?_cons_succ, List.getElem?_cons_zero]

theorem hugeTableDup_cap : hugeTableDup.capacity = 2147483647 := by
  unfold hugeTableDup
  simp only

theorem hugeTableDup_len : hugeTableDup.len = 2147483646 := by
  unfold hugeTableDup
  simp only

/-- For every capacity `C <= INT_MAX`, both allocations succeeding and whatever the fresh slot
array contains, `HT_New( C )` returns a table with `capacity == C`, `len == 0` and exactly `C`
slots, every one of them Empty with salary 0 (any fuel above `C` is enough). -/
theorem HT_New_run [Zero F] (C : Nat) (hC : C ≤ 2147483647)
    (block : List (Entry_table F)) (hblock : block.length = C) (fuel : Nat) (hfuel : C < fuel) :
    ∃ ht, HT_New fuel true (some block) C = .ret (some ht) ∧
      ht.capacity = C ∧ ht.len = 0 ∧ ht.table.length = C ∧
      ht.table = List.replicate C ⟨EMPTY_CELL, 0⟩ ∧
      ∀ (p : Nat), p < C → ∃ e, ht.table[p]? = some e ∧ e.id = EMPTY_CELL := by
  obtain ⟨t', hloop⟩ := HT_New_loop_run C hC C 0 block (le_refl _) (by omega) hblock fuel hfuel
  have hnew : HT_New fuel true (some block) C = .ret (some ⟨t', C, 0⟩) := by
    unfold HT_New
    rw [if_pos rfl]
    simp only
    rw [hloop]
  obtain ⟨_, hval⟩ := HT_New_ret C fuel block _ hblock hnew
  injection hval with htab _ _
  subst htab
  refine ⟨_, hnew, rfl, rfl, by simp, rfl, ?_⟩
  intro p hp
  exact ⟨⟨EMPTY_CELL, 0⟩, List.getElem?_replicate_of_lt hp, rfl⟩

/-! ## The wrapping operations, run and traced back -/

theorem toInt_succ_wrap (t : Nat) : addIntWrap (toInt t) 1 = toInt (t + 1) := by
  unfold addIntWrap toSizeT toInt
  split_ifs <;> omega

theorem advanceWrap_step {C : Nat} (id home : Int) (t : Nat) (hC : 0 < C) :
    advanceWrap C id home (toInt t) = .ret (wrapPos C id home (t + 1), toInt (t + 1)) := by
  unfold advanceWrap
  rw [if_neg (by omega), toInt_succ_wrap]
  rfl

theorem wrapPos_inside {C : Nat} (id : Int) (home : Nat) (hC : 0 < C) (hcap : C ≤ 2147483648)
    (hhome : home < C) (t : Nat) : ∃ p : Nat, p < C ∧ wrapPos C id (home : Int) t = (p : Int) := by
  cases t with
  | zero => exact ⟨home, hhome, rfl⟩
  | succ t =>
    refine ⟨toSizeT (addIntWrap home (probe id (toSizeT (toInt t)))) % C, Nat.mod_lt _ hC, ?_⟩
    have hlt := Nat.mod_lt (toSizeT (addIntWrap home (probe id (toSizeT (toInt t))))) hC
    show toInt _ = _
    exact toInt_small (by omega)

theorem wrapPos_cell {C : Nat} (ht : Hash_table F) (hsize : ht.table.length = C) (id : Int)
    (home : Nat) (hC : 0 < C) (hcap : C ≤ 2147483648) (hhome : home < C) (t : Nat) :
    ∃ e, cellAt ht.table (wrapPos C id (home : Int) t) = some e := by
  obtain ⟨p, hp, heq⟩ := wrapPos_inside id home hC hcap hhome t
  rw [heq, cellAt_ofNat]
  have hlt : p < ht.table.length := by omega
  exact ⟨ht.table[p], List.getElem?_eq_getElem hlt⟩

/-- The wrapping loop of `HT_Search` ends with `found == false` when it reaches an Empty slot
at step `t + n` without meeting the key on the way. -/
theorem search_loop_wrap_run (ht : Hash_table F) (k : Int) (home : Nat)
    (hsize : ht.table.length = ht.capacity) (hC : 0 < ht.capacity)
    (hcap : ht.capacity ≤ 2147483648) (hhome : home < ht.capacity) :
    ∀ (n t fuel : Nat), n < fuel →
      (∀ t', t < t' → t' ≤ t + n →
        ∀ e, cellAt ht.table (wrapPos ht.capacity k (home : Int) t') = some e → e.id ≠ k) →
      (∃ e, cellAt ht.table (wrapPos ht.capacity k (home : Int) (t + n)) = some e ∧
        e.id = EMPTY_CELL) →
      ∃ pos, HT_Search_loop_wrap ht k (home : Int) fuel
        (wrapPos ht.capacity k (home : Int) t) (toInt t) false = .ret (pos, false) := by
  intro n
  induction n with
  | zero =>
    intro t fuel hf _ hend
    obtain ⟨f, rfl⟩ : ∃ f, fuel = f + 1 := ⟨fuel - 1, by omega⟩
    obtain ⟨e, he, hE⟩ := hend
    rw [Nat.add_zero] at he
    unfold HT_Search_loop_wrap
    rw [he]
    simp only
    rw [if_neg (fun hx => hx.1 hE)]
    exact ⟨_, rfl⟩
  | succ n ih =>
    intro t fuel hf hkey hend
    obtain ⟨f, rfl⟩ : ∃ f, fuel = f + 1 := ⟨fuel - 1, by omega⟩
    obtain ⟨e, he⟩ := wrapPos_cell ht hsize k home hC hcap hhome t
    obtain ⟨e1, he1⟩ := wrapPos_cell ht hsize k home hC hcap hhome (t + 1)
    unfold HT_Search_loop_wrap
    rw [he]
    simp only
    by_cases hE : e.id = EMPTY_CELL
    · rw [if_neg (fun hx => hx.1 hE)]
      exact ⟨_, rfl⟩
    · rw [if_pos ⟨hE, trivial⟩, advanceWrap_step k home t hC]
      simp only
      rw [he1]
      simp only
      rw [if_neg (hkey (t + 1) (by omega) (by omega) e1 he1)]
      exact ih (t + 1) f (by omega)
        (fun t' h1 h2 => hkey t' (by omega) (by omega))
        (by rw [show t + 1 + n = t + (n + 1) by omega]; exact hend)

/-- Operation `HT_Search` with wrapping arithmetic returns `false` when its scan reaches an
Empty slot at step `T` without meeting the key. -/
theorem HT_Search_wrap_run (ht : Hash_table F) (k : Int) (s0 : F) (hk0 : 0 ≤ k)
    (hk : k ≤ INT_MAX) (hlen : 0 < ht.len) (hsize : ht.table.length = ht.capacity)
    (hC : 0 < ht.capacity) (hcap : ht.capacity ≤ 2147483648) (T fuel : Nat) (hf : T < fuel)
    (hkey : ∀ t', t' ≤ T → ∀ e,
      cellAt ht.table (wrapPos ht.capacity k ((k.toNat % ht.capacity : Nat) : Int) t') = some e →
        e.id ≠ k)
    (hend : ∃ e,
      cellAt ht.table (wrapPos ht.capacity k ((k.toNat % ht.capacity : Nat) : Int) T) = some e ∧
        e.id = EMPTY_CELL) :
    HT_Search_wrap fuel ht k s0 = .ret (false, s0) := by
  have hr : k.toNat % ht.capacity < ht.capacity := Nat.mod_lt _ hC
  obtain ⟨e0, he0⟩ := wrapPos_cell ht hsize k (k.toNat % ht.capacity) hC hcap hr 0
  have hk0' := hkey 0 (by omega) e0 he0
  obtain ⟨pos, hloop⟩ := search_loop_wrap_run ht k (k.toNat % ht.capacity) hsize hC hcap hr
    T 0 fuel hf (fun t' _ h2 => hkey t' (by omega))
    (by rw [Nat.zero_add]; exact hend)
  have hz : toInt 0 = 0 := by decide
  rw [hz] at hloop
  have hw0 : wrapPos ht.capacity k ((k.toNat % ht.capacity : Nat) : Int) 0
      = ((k.toNat % ht.capacity : Nat) : Int) := rfl
  rw [hw0] at hloop he0
  unfold HT_Search_wrap
  rw [if_pos hlen, h_nonneg hk0 hk hC]
  simp only
  rw [he0]
  simp only
  rw [if_neg hk0']
  by_cases hE : e0.id = EMPTY_CELL
  · rw [if_pos hE]
    unfold HT_Search_finish
    simp
  · rw [if_neg hE, hloop]
    simp only
    unfold HT_Search_finish
    simp

/-- The wrapping scan of `HT_Insert` stops at step `t + n` when the slot there is not
Occupied and the slots before it are Occupied with other keys. -/
theorem insert_loop_wrap_run (ht : Hash_table F) (k : Int) (home : Nat)
    (hC : 0 < ht.capacity) :
    ∀ (n t fuel : Nat), n < fuel →
      (∀ t', t ≤ t' → t' < t + n →
        ∃ e, cellAt ht.table (wrapPos ht.capacity k (home : Int) t') = some e ∧
          0 ≤ e.id ∧ e.id ≠ k) →
      (∃ e, cellAt ht.table (wrapPos ht.capacity k (home : Int) (t + n)) = some e ∧
        ¬ 0 ≤ e.id) →
      HT_Insert_loop_wrap ht k (home : Int) fuel
        (wrapPos ht.capacity k (home : Int) t) (toInt t)
          = .ret (some (wrapPos ht.capacity k (home : Int) (t + n))) := by
  intro n
  induction n with
  | zero =>
    intro t fuel hf _ hend
    obtain ⟨f, rfl⟩ : ∃ f, fuel = f + 1 := ⟨fuel - 1, by omega⟩
    obtain ⟨e, he, h0⟩ := hend
    rw [Nat.add_zero] at he
    unfold HT_Insert_loop_wrap
    rw [he]
    simp only
    rw [if_neg h0]
    rfl
  | succ n ih =>
    intro t fuel hf hocc hend
    obtain ⟨f, rfl⟩ : ∃ f, fuel = f + 1 := ⟨fuel - 1, by omega⟩
    obtain ⟨e, he, h0, hk⟩ := hocc t (le_refl _) (by omega)
    unfold HT_Insert_loop_wrap
    rw [he]
    simp only
    rw [if_pos h0, if_neg hk, advanceWrap_step k home t hC]
    simp only
    have := ih (t + 1) f (by omega) (fun t' h1 h2 => hocc t' (by omega) (by omega))
      (by rw [show t + 1 + n = t + (n + 1) by omega]; exact hend)
    rw [show t + 1 + n = t + (n + 1) by omega] at this
    exact this

/-- Operation `HT_Insert` with wrapping arithmetic writes the first slot of its scan that is
not Occupied, when the slots before it are Occupied with other keys. -/
theorem HT_Insert_wrap_run (ht : Hash_table F) (k : Int) (v : F) (hk0 : 0 ≤ k)
    (hk : k ≤ INT_MAX) (hlen : ht.len < ht.capacity) (T fuel : Nat) (hf : T < fuel)
    (hocc : ∀ t', t' < T →
      ∃ e, cellAt ht.table (wrapPos ht.capacity k ((k.toNat % ht.capacity : Nat) : Int) t')
        = some e ∧ 0 ≤ e.id ∧ e.id ≠ k)
    (hend : ∃ e,
      cellAt ht.table (wrapPos ht.capacity k ((k.toNat % ht.capacity : Nat) : Int) T) = some e ∧
        ¬ 0 ≤ e.id) :
    HT_Insert_wrap fuel ht k v = .ret (true,
      { table := ht.table.set
          (wrapPos ht.capacity k ((k.toNat % ht.capacity : Nat) : Int) T).toNat ⟨k, v⟩,
        capacity := ht.capacity,
        len := (ht.len + 1) % 18446744073709551616 }) := by
  have hC : 0 < ht.capacity := by omega
  have hloop := insert_loop_wrap_run ht k (k.toNat % ht.capacity) hC T 0 fuel hf
    (fun t' _ h2 => hocc t' (by omega)) (by rw [Nat.zero_add]; exact hend)
  have hz : toInt 0 = 0 := by decide
  have hw0 : wrapPos ht.capacity k ((k.toNat % ht.capacity : Nat) : Int) 0
      = ((k.toNat % ht.capacity : Nat) : Int) := rfl
  rw [hz, hw0, Nat.zero_add] at hloop
  unfold HT_Insert_wrap
  rw [if_pos hlen, h_nonneg hk0 hk hC]
  simp only
  rw [hloop]

/-- The wrapping initialisation loop on a capacity above `INT_MAX`: it writes the slots up to
slot `INT_MAX`, the counter wraps around to `INT_MIN`, and the loop ends with the slots from
`2 ^ 31` on as they were. -/
theorem HT_New_loop_wrap_run [Zero F] (C : Nat) (hC : 2147483647 < C)
    (hC2 : C ≤ 18446744071562067968) :
    ∀ (n : Nat) (i : Int) (t : List (Entry_table F)), 0 ≤ i → i.toNat + n = 2147483647 →
      t.length = C → ∀ fuel, n + 1 < fuel →
      ∃ t', HT_New_loop_wrap C fuel i t = .ret t' ∧ t'.length = C ∧
        (∀ p : Nat, 2147483648 ≤ p → t'[p]? = t[p]?) ∧
        (∀ p : Nat, p < i.toNat → t'[p]? = t[p]?) ∧
        (∀ p : Nat, i.toNat ≤ p → p < 2147483648 → t'[p]? = some ⟨EMPTY_CELL, 0⟩) := by
  intro n
  induction n with
  | zero =>
    intro i t h0 hi ht fuel hf
    obtain ⟨f, rfl⟩ : ∃ f, fuel = f + 1 + 1 := ⟨fuel - 2, by omega⟩
    have hsz : toSizeT i = i.toNat := by unfold toSizeT; omega
    obtain ⟨x, hcell⟩ : ∃ x, cellAt t i = some x := by
      have hlt : i.toNat < t.length := by omega
      unfold cellAt
      rw [if_pos h0]
      exact ⟨t[i.toNat], List.getElem?_eq_getElem hlt⟩
    have hnext : addIntWrap i 1 = -2147483648 := by
      unfold addIntWrap toSizeT toInt
      split_ifs <;> omega
    have hstop : ¬ toSizeT (-2147483648) < C := by
      have : toSizeT (-2147483648) = 18446744071562067968 := by decide
      omega
    unfold HT_New_loop_wrap
    rw [if_pos (by omega), hcell]
    simp only
    rw [hnext]
    unfold HT_New_loop_wrap
    rw [if_neg hstop]
    refine ⟨_, rfl, by simp [ht], ?_, ?_, ?_⟩
    · intro p hp
      rw [List.getElem?_set_ne (by omega)]
    · intro p hp
      rw [List.getElem?_set_ne (by omega)]
    · intro p hp1 hp2
      have hpi : p = i.toNat := by omega
      subst hpi
      rw [List.getElem?_set_self (by omega)]
  | succ n ih =>
    intro i t h0 hi ht fuel hf
    obtain ⟨f, rfl⟩ : ∃ f, fuel = f + 1 := ⟨fuel - 1, by omega⟩
    have hsz : toSizeT i = i.toNat := by unfold toSizeT; omega
    obtain ⟨x, hcell⟩ : ∃ x, cellAt t i = some x := by
      have hlt : i.toNat < t.length := by omega
      unfold cellAt
      rw [if_pos h0]
      exact ⟨t[i.toNat], List.getElem?_eq_getElem hlt⟩
    have hnext : addIntWrap i 1 = i + 1 := by
      unfold addIntWrap toSizeT toInt
      split_ifs <;> omega
    unfold HT_New_loop_wrap
    rw [if_pos (by omega), hcell]
    simp only
    rw [hnext]
    obtain ⟨t', hrun, hlen', hkeep, hlow, hset⟩ := ih (i + 1) (t.set i.toNat ⟨EMPTY_CELL, 0⟩)
      (by omega) (by omega) (by simp [ht]) f (by omega)
    refine ⟨t', hrun, hlen', ?_, ?_, ?_⟩
    · intro p hp
      rw [hkeep p hp, List.getElem?_set_ne (by omega)]
    · intro p hp
      rw [hlow p (by omega), List.getElem?_set_ne (by omega)]
    · intro p hp1 hp2
      by_cases hpi : p = i.toNat
      · subst hpi
        rw [hlow _ (by omega), List.getElem?_set_self (by omega)]
      · exact hset p (by omega) hp2

theorem addIntWrap_of_ret {a b s : Int} (hs : addInt a b = .ret s) : addIntWrap a b = s := by
  unfold addInt at hs
  by_cases hr : INT_MIN ≤ a + b ∧ a + b ≤ INT_MAX
  · rw [if_pos hr] at hs
    injection hs with hs
    subst hs
    unfold INT_MIN INT_MAX at hr
    unfold addIntWrap toSizeT toInt
    split_ifs <;> omega
  · rw [if_neg hr] at hs
    exact Outcome.noConfusion hs

theorem advanceWrap_of_ret {C : Nat} {id home i : Int} {x : Int × Int}
    (hx : advance C id home i = .ret x) : advanceWrap C id home i = .ret x := by
  unfold advance at hx
  cases h1 : addInt home (probe id (toSizeT i)) with
  | ret s =>
    rw [h1] at hx
    simp only at hx
    by_cases hC : C = 0
    · rw [if_pos hC] at hx
      exact Outcome.noConfusion hx
    · rw [if_neg hC] at hx
      cases h2 : addInt i 1 with
      | ret i' =>
        rw [h2] at hx
        simp only at hx
        unfold advanceWrap
        rw [if_neg hC, addIntWrap_of_ret h1, addIntWrap_of_ret h2]
        exact hx
      | assertFail => rw [h2] at hx; exact Outcome.noConfusion hx
      | ub => rw [h2] at hx; exact Outcome.noConfusion hx
      | noFuel => rw [h2] at hx; exact Outcome.noConfusion hx
  | assertFail => rw [h1] at hx; exact Outcome.noConfusion hx
  | ub => rw [h1] at hx; exact Outcome.noConfusion hx
  | noFuel => rw [h1] at hx; exact Outcome.noConfusion hx

/-- A returning loop of `HT_Search` had no overflow, and the wrapping loop returns the same. -/
theorem HT_Search_loop_wrap_of_ret (ht : Hash_table F) (k home : Int) :
    ∀ (fuel : Nat) (pos i : Int) (found : Bool) (r : Int × Bool),
      HT_Search_loop ht k home fuel pos i found = .ret r →
      HT_Search_loop_wrap ht k home fuel pos i found = .ret r := by
  intro fuel
  induction fuel with
  | zero =>
    intro pos i found r hl
    unfold HT_Search_loop at hl
    exact Outcome.noConfusion hl
  | succ f ih =>
    intro pos i found r hl
    unfold HT_Search_loop at hl
    unfold HT_Search_loop_wrap
    cases hc : cellAt ht.table pos with
    | none =>
      rw [hc] at hl
      exact Outcome.noConfusion hl
    | some e =>
      rw [hc] at hl
      simp only at hl ⊢
      by_cases hcond : e.id ≠ EMPTY_CELL ∧ found = false
      · rw [if_pos hcond] at hl ⊢
        cases ha : advance ht.capacity k home i with
        | ret x =>
          obtain ⟨pos', i'⟩ := x
          rw [ha] at hl
          rw [advanceWrap_of_ret ha]
          simp only at hl ⊢
          cases hc' : cellAt ht.table pos' with
          | none =>
            rw [hc'] at hl
            exact Outcome.noConfusion hl
          | some e' =>
            rw [hc'] at hl
            simp only at hl ⊢
            exact ih _ _ _ r hl
        | assertFail => rw [ha] at hl; exact Outcome.noConfusion hl
        | ub => rw [ha] at hl; exact Outcome.noConfusion hl
        | noFuel => rw [ha] at hl; exact Outcome.noConfusion hl
      · rw [if_neg hcond] at hl ⊢
        exact hl

/-- A returning call of `HT_Search` had no overflow: the wrapping operation returns the same. -/
theorem HT_Search_wrap_of_ret (ht : Hash_table F) (k : Int) (s0 : F) (fuel : Nat)
    (r : Bool × F) (hs : HT_Search fuel ht k s0 = .ret r) :
    HT_Search_wrap fuel ht k s0 = .ret r := by
  unfold HT_Search at hs
  unfold HT_Search_wrap
  by_cases hlen : 0 < ht.len
  · rw [if_pos hlen] at hs ⊢
    cases hh : h k ht.capacity with
    | ret home =>
      rw [hh] at hs
      simp only at hs ⊢
      cases hc : cellAt ht.table home with
      | none =>
        rw [hc] at hs
        exact Outcome.noConfusion hs
      | some e =>
        rw [hc] at hs
        simp only at hs ⊢
        by_cases hke : e.id = k
        · rw [if_pos hke] at hs ⊢
          exact hs
        · rw [if_neg hke] at hs ⊢
          by_cases hE : e.id = EMPTY_CELL
          · rw [if_pos hE] at hs ⊢
            exact hs
          · rw [if_neg hE] at hs ⊢
            cases hl : HT_Search_loop ht k home fuel home 0 false with
            | ret x =>
              rw [hl] at hs
              rw [HT_Search_loop_wrap_of_ret ht k home fuel home 0 false x hl]
              exact hs
            | assertFail => rw [hl] at hs; exact Outcome.noConfusion hs
            | ub => rw [hl] at hs; exact Outcome.noConfusion hs
            | noFuel => rw [hl] at hs; exact Outcome.noConfusion hs
    | assertFail => rw [hh] at hs; exact Outcome.noConfusion hs
    | ub => rw [hh] at hs; exact Outcome.noConfusion hs
    | noFuel => rw [hh] at hs; exact Outcome.noConfusion hs
  · rw [if_neg hlen] at hs
    exact Outcome.noConfusion hs

/-- A returning scan of `HT_Insert` had no overflow, and the wrapping scan returns the same. -/
theorem HT_Insert_loop_wrap_of_ret (ht : Hash_table F) (k home : Int) :
    ∀ (fuel : Nat) (pos i : Int) (r : Option Int),
      HT_Insert_loop ht k home fuel pos i = .ret r →
      HT_Insert_loop_wrap ht k home fuel pos i = .ret r := by
  intro fuel
  induction fuel with
  | zero =>
    intro pos i r hl
    unfold HT_Insert_loop at hl
    exact Outcome.noConfusion hl
  | succ f ih =>
    intro pos i r hl
    unfold HT_Insert_loop at hl
    unfold HT_Insert_loop_wrap
    cases hc : cellAt ht.table pos with
    | none =>
      rw [hc] at hl
      exact Outcome.noConfusion hl
    | some e =>
      rw [hc] at hl
      simp only at hl ⊢
      by_cases h0 : 0 ≤ e.id
      · rw [if_pos h0] at hl ⊢
        by_cases hke : e.id = k
        · rw [if_pos hke] at hl ⊢
          exact hl
        · rw [if_neg hke] at hl ⊢
          cases ha : advance ht.capacity k home i with
          | ret x =>
            obtain ⟨pos', i'⟩ := x
            rw [ha] at hl
            rw [advanceWrap_of_ret ha]
            simp only at hl ⊢
            exact ih _ _ r hl
          | assertFail => rw [ha] at hl; exact Outcome.noConfusion hl
          | ub => rw [ha] at hl; exact Outcome.noConfusion hl
          | noFuel => rw [ha] at hl; exact Outcome.noConfusion hl
      · rw [if_neg h0] at hl ⊢
        exact hl

/-- A returning call of `HT_Insert` had no overflow: the wrapping operation returns the same. -/
theorem HT_Insert_wrap_of_ret (ht : Hash_table F) (k : Int) (v : F) (fuel : Nat)
    (r : Bool × Hash_table F) (hs : HT_Insert fuel ht k v = .ret r) :
    HT_Insert_wrap fuel ht k v = .ret r := by
  unfold HT_Insert at hs
  unfold HT_Insert_wrap
  by_cases hlen : ht.len < ht.capacity
  · rw [if_pos hlen] at hs ⊢
    cases hh : h k ht.capacity with
    | ret home =>
      rw [hh] at hs
      simp only at hs ⊢
      cases hl : HT_Insert_loop ht k home fuel home 0 with
      | ret x =>
        rw [hl] at hs
        rw [HT_Insert_loop_wrap_of_ret ht k home fuel home 0 x hl]
        exact hs
      | assertFail => rw [hl] at hs; exact Outcome.noConfusion hs
      | ub => rw [hl] at hs; exact Outcome.noConfusion hs
      | noFuel => rw [hl] at hs; exact Outcome.noConfusion hs
    | assertFail => rw [hh] at hs; exact Outcome.noConfusion hs
    | ub => rw [hh] at hs; exact Outcome.noConfusion hs
    | noFuel => rw [hh] at hs; exact Outcome.noConfusion hs
  · rw [if_neg hlen] at hs
    exact Outcome.noConfusion hs

/-- A returning initialisation loop had no overflow, and the wrapping loop returns the same. -/
theorem HT_New_loop_wrap_of_ret [Zero F] (C : Nat) :
    ∀ (fuel : Nat) (i : Int) (t t' : List (Entry_table F)),
      HT_New_loop C fuel i t = .ret t' → HT_New_loop_wrap C fuel i t = .ret t' := by
  intro fuel
  induction fuel with
  | zero =>
    intro i t t' hl
    unfold HT_New_loop at hl
    exact Outcome.noConfusion hl
  | succ f ih =>
    intro i t t' hl
    unfold HT_New_loop at hl
    unfold HT_New_loop_wrap
    by_cases hlt : toSizeT i < C
    · rw [if_pos hlt] at hl ⊢
      cases hc : cellAt t i with
      | none =>
        rw [hc] at hl
        exact Outcome.noConfusion hl
      | some e =>
        rw [hc] at hl
        simp only at hl ⊢
        cases ha : addInt i 1 with
        | ret i' =>
          rw [ha] at hl
          rw [addIntWrap_of_ret ha]
          exact ih _ _ t' hl
        | assertFail => rw [ha] at hl; exact Outcome.noConfusion hl
        | ub => rw [ha] at hl; exact Outcome.noConfusion hl
        | noFuel => rw [ha] at hl; exact Outcome.noConfusion hl
    · rw [if_neg hlt] at hl ⊢
      exact hl

/-- A returning call of `HT_New` had no overflow: the wrapping operation returns the same. -/
theorem HT_New_wrap_of_ret [Zero F] (fuel : Nat) (recordOk : Bool)
    (block : Option (List (Entry_table F))) (C : Nat) (r : Option (Hash_table F))
    (hs : HT_New fuel recordOk block C = .ret r) :
    HT_New_wrap fuel recordOk block C = .ret r := by
  unfold HT_New at hs
  unfold HT_New_wrap
  cases recordOk with
  | false => exact hs
  | true =>
    simp only [if_true] at hs ⊢
    cases block with
    | none => exact hs
    | some t =>
      simp only at hs ⊢
      cases hl : HT_New_loop C fuel 0 t with
      | ret t' =>
        rw [hl] at hs
        rw [HT_New_loop_wrap_of_ret C fuel 0 t t' hl]
        exact hs
      | assertFail => rw [hl] at hs; exact Outcome.noConfusion hs
      | ub => rw [hl] at hs; exact Outcome.noConfusion hs
      | noFuel => rw [hl] at hs; exact Outcome.noConfusion hs

/-- The first three positions of the wrapping scan for key 2147483646 on `INT_MAX` slots: the
last slot, slot 0, and after the overflow of `home + 2` slot 3. -/
theorem wrapPos_lastSlot :
    wrapPos 2147483647 2147483646 (((2147483646 : Int).toNat % 2147483647 : Nat) : Int) 0
      = ((2147483646 : Nat) : Int) ∧
    wrapPos 2147483647 2147483646 (((2147483646 : Int).toNat % 2147483647 : Nat) : Int) 1
      = ((0 : Nat) : Int) ∧
    wrapPos 2147483647 2147483646 (((2147483646 : Int).toNat % 2147483647 : Nat) : Int) 2
      = ((3 : Nat) : Int) := by
  decide

/-! ## Claims -/

/-- C1 (round trip): whenever `HT_Insert( ht, k, v )` returns `true` for a non-negative `int`
key `k`, a following `HT_Search( ht, k, &salary )` on the resulting table returns `true` and
leaves exactly `v` in `*salary` (for any fuel at least the one the insertion needed). -/
theorem C1_insert_then_search (ht ht' : Hash_table F) (k : Int) (v s0 : F) (fuel : Nat)
    (hcap : ht.capacity ≤ SIZE_MAX) (hk0 : 0 ≤ k) (hk : k ≤ INT_MAX)
    (hins : HT_Insert fuel ht k v = .ret (true, ht')) :
    ∀ fuel', fuel ≤ fuel' → HT_Search fuel' ht' k s0 = .ret (true, v) := by
  intro fuel' hfuel
  obtain ⟨hlen, d, e, hd, hb, hoth, he, hne, hres⟩ := HT_Insert_ret ht ht' k v true fuel hk0 hk hins
  have h0 : ¬ 0 ≤ e.id := by
    intro h0
    rw [if_pos h0] at hres
    injection hres with hb _
    exact Bool.noConfusion hb
  rw [if_neg h0] at hres
  injection hres with _ hht
  subst hht
  have hplt : (k.toNat % ht.capacity + d) % ht.capacity < ht.table.length := by
    by_contra hge
    rw [List.getElem?_eq_none (by omega)] at he
    exact Option.noConfusion he
  have hrun := HT_Search_run
    { table := ht.table.set ((k.toNat % ht.capacity + d) % ht.capacity) ⟨k, v⟩,
      capacity := ht.capacity, len := (ht.len + 1) % 18446744073709551616 } k s0 hk0 hk
    (by unfold SIZE_MAX at hcap; simp only; omega) (by simp only; omega) d fuel' (by omega) hb
    (by
      intro j hj
      obtain ⟨e', he', h0', hk'⟩ := hoth j hj
      refine ⟨e', ?_, hk', ?_⟩
      · simp only
        rw [List.getElem?_set_ne]
        · exact he'
        · intro heq
          rw [heq, he'] at he
          injection he with he
          subst he
          exact h0 h0'
      · unfold EMPTY_CELL; omega)
    ⟨k, v⟩ (List.getElem?_set_self hplt) (Or.inl rfl)
  simpa using hrun

theorem C1_insert_then_search_witness :
    HT_Search 2 (⟨[⟨-1, 0⟩, ⟨7, 5⟩, ⟨4, 9⟩], 3, 2⟩ : Hash_table Int) 4 0 = .ret (true, 9) :=
  C1_insert_then_search (⟨[⟨-1, 0⟩, ⟨7, 5⟩, ⟨-1, 0⟩], 3, 1⟩ : Hash_table Int)
    ⟨[⟨-1, 0⟩, ⟨7, 5⟩, ⟨4, 9⟩], 3, 2⟩ 4 9 0 2 (by decide) (by decide) (by decide) (by decide)
    2 (le_refl 2)

/-- C2: for every capacity `C > 0` and every list of at most `C - 1` pairwise distinct
non-negative `int` keys with values, inserting the pairs in order into the table returned by
`HT_New( C )` returns `true` for every pair, and afterwards `HT_Search` of each inserted key
returns `true` with the value inserted with that key (any fuel above `C` is enough). -/
theorem C2_distinct_keys_all_found [Zero F] (C : Nat) (hC : 0 < C) (fuel0 : Nat)
    (block : List (Entry_table F)) (ht0 : Hash_table F) (hblock : block.length = C)
    (hnew : HT_New fuel0 true (some block) C = .ret (some ht0))
    (kvs : List (Int × F)) (hn : kvs.length ≤ C - 1) (hdist : (kvs.map Prod.fst).Nodup)
    (hkeys : ∀ kv ∈ kvs, 0 ≤ kv.1 ∧ kv.1 ≤ INT_MAX) (fuel : Nat) (hfuel : C < fuel) :
    ∃ ht, insertAll fuel ht0 kvs = .ret (List.replicate kvs.length true, ht) ∧
      ∀ kv ∈ kvs, ∀ s0, HT_Search fuel ht kv.1 s0 = .ret (true, kv.2) := by
  obtain ⟨hcmax, rfl⟩ := HT_New_ret C fuel0 block ht0 hblock hnew
  obtain ⟨ht, hall, hinv, hlen, hst, _⟩ := insertAll_fresh fuel hfuel kvs _ (Inv_new hcmax)
    (by simp only; omega) hdist hkeys
    (by
      intro kv hkv q e hq
      simp only [List.getElem?_replicate] at hq
      split at hq
      · injection hq with hq
        subst hq
        have := (hkeys kv hkv).1
        unfold EMPTY_CELL
        simp only
        omega
      · exact Option.noConfusion hq)
  refine ⟨ht, hall, ?_⟩
  intro kv hkv s0
  obtain ⟨q, hq⟩ := hst kv hkv
  have hpos : 0 < kvs.length := List.length_pos_of_mem hkv
  simp only at hlen
  exact search_stored ht hinv (by omega) (by omega) q ⟨kv.1, kv.2⟩ hq (hkeys kv hkv).1 s0 fuel
    hfuel

theorem C2_distinct_keys_all_found_witness :
    ∃ ht, insertAll 4 (⟨[⟨-1, 0⟩, ⟨-1, 0⟩, ⟨-1, 0⟩], 3, 0⟩ : Hash_table Int) [(4, 10), (7, 20)]
        = .ret ([true, true], ht) ∧
      ∀ kv ∈ [((4 : Int), (10 : Int)), (7, 20)], ∀ s0, HT_Search 4 ht kv.1 s0 = .ret (true, kv.2) :=
  C2_distinct_keys_all_found 3 (by decide) 4 [⟨7, 1⟩, ⟨8, 2⟩, ⟨-5, 3⟩]
    ⟨[⟨-1, 0⟩, ⟨-1, 0⟩, ⟨-1, 0⟩], 3, 0⟩ rfl (by decide) [(4, 10), (7, 20)] (by decide)
    (by decide) (by decide) 4 (by decide)

/-- C3: in a table reachable from `HT_New( C )` through `HT_Insert` calls of non-negative keys,
with `len < capacity`, inserting a key that some slot already holds returns `false` for every
value and leaves the whole table (`len`, every key, every value) as it was. -/
theorem C3_duplicate_key_rejected [Zero F] (C : Nat) (ht : Hash_table F) (hr : Reachable C ht)
    (q : Nat) (e : Entry_table F) (hq : ht.table[q]? = some e) (he0 : 0 ≤ e.id)
    (hlen : ht.len < ht.capacity) (v : F) (fuel : Nat) (hfuel : C < fuel) :
    HT_Insert fuel ht e.id v = .ret (false, ht) := by
  have hinv := hr.inv
  exact insert_stored ht hinv (by rw [← hinv.cap]; exact hlen) q e hq he0 v fuel hfuel

theorem C3_duplicate_key_rejected_witness :
    HT_Insert 4 (⟨[⟨-1, 0⟩, ⟨4, 10⟩, ⟨-1, 0⟩], 3, 1⟩ : Hash_table Int) 4 99
      = .ret (false, ⟨[⟨-1, 0⟩, ⟨4, 10⟩, ⟨-1, 0⟩], 3, 1⟩) :=
  C3_duplicate_key_rejected 3 ⟨[⟨-1, 0⟩, ⟨4, 10⟩, ⟨-1, 0⟩], 3, 1⟩
    (Reachable.insert 4 ⟨[⟨-1, 0⟩, ⟨-1, 0⟩, ⟨-1, 0⟩], 3, 0⟩ _ 4 10 true
      (Reachable.new 4 [⟨7, 1⟩, ⟨8, 2⟩, ⟨-5, 3⟩] _ rfl (by decide))
      (by decide) (by decide) (by decide))
    1 ⟨4, 10⟩ rfl (by decide) (by decide) 99 4 (by decide)

/-- C5 (what the code does): on a table with `len == capacity` the call `HT_Insert` stops at
its `assert( ht->len < ht->capacity )` for every key and value; it does not return `false`. -/
theorem C5_full_table_insert_aborts (ht : Hash_table F) (hfull : ht.len = ht.capacity)
    (k : Int) (v : F) (fuel : Nat) : HT_Insert fuel ht k v = .assertFail := by
  unfold HT_Insert
  rw [if_neg (by omega)]

theorem C5_full_table_insert_aborts_witness :
    HT_Insert 5 (⟨[⟨0, 1⟩], 1, 1⟩ : Hash_table Int) 1 2 = .assertFail :=
  C5_full_table_insert_aborts ⟨[⟨0, 1⟩], 1, 1⟩ rfl 1 2 5

/-- C6 (what the code does): on the table of `main` (capacity 10, the six employees inserted)
`HT_Remove( ht, 1234 )` returns `false` although slot 4 holds key 1234, the table is left as it
was, `len` is still 6 and a following `HT_Search` of 1234 still returns `true`. -/
theorem C6_remove_is_a_stub :
    insertAll 11 (⟨List.replicate 10 ⟨-1, 0⟩, 10, 0⟩ : Hash_table Int) demoPairs
      = .ret (List.replicate 6 true, demoTable) ∧
    demoTable.table[4]? = some ⟨1234, 13500⟩ ∧
    HT_Remove demoTable 1234 = (false, demoTable) ∧
    (HT_Remove demoTable 1234).2.len = 6 ∧
    HT_Search 11 (HT_Remove demoTable 1234).2 1234 0 = .ret (true, 13500) := by
  decide

/-- C7: for every table and every key that no Occupied slot holds, `HT_Remove` returns `false`
and leaves `len` and every slot unchanged. -/
theorem C7_remove_absent_key (ht : Hash_table F) (k : Int)
    (_habs : ∀ (p : Nat) (e : Entry_table F), ht.table[p]? = some e → 0 ≤ e.id → e.id ≠ k) :
    HT_Remove ht k = (false, ht) := rfl

theorem C7_remove_absent_key_witness :
    HT_Remove (⟨[⟨-1, 0⟩, ⟨4, 10⟩, ⟨-1, 0⟩], 3, 1⟩ : Hash_table Int) 5
      = (false, ⟨[⟨-1, 0⟩, ⟨4, 10⟩, ⟨-1, 0⟩], 3, 1⟩) :=
  C7_remove_absent_key ⟨[⟨-1, 0⟩, ⟨4, 10⟩, ⟨-1, 0⟩], 3, 1⟩ 5
    (by
      intro p e hp _
      have hmem := List.getElem?_mem hp
      simp only [List.mem_cons, List.mem_singleton, List.not_mem_nil, or_false] at hmem
      rcases hmem with rfl | rfl | rfl <;> decide)

/-- Counterexample to C8 as stated: one insertion into `HT_New( 1 )`, made with
`len < capacity`, leaves `len == capacity` and no Empty slot, and a search for the absent
key 1 never returns. -/
theorem C8_counterexample :
    HT_New 2 true (some [⟨5, 5⟩]) 1 = .ret (some (⟨[⟨-1, 0⟩], 1, 0⟩ : Hash_table Int)) ∧
    (⟨[⟨-1, 0⟩], 1, 0⟩ : Hash_table Int).len < (⟨[⟨-1, 0⟩], 1, 0⟩ : Hash_table Int).capacity ∧
    HT_Insert 1 (⟨[⟨-1, 0⟩], 1, 0⟩ : Hash_table Int) 0 7 = .ret (true, ⟨[⟨0, 7⟩], 1, 1⟩) ∧
    ¬ ((⟨[⟨0, 7⟩], 1, 1⟩ : Hash_table Int).len < (⟨[⟨0, 7⟩], 1, 1⟩ : Hash_table Int).capacity) ∧
    (∀ (p : Nat) (e : Entry_table Int),
      (⟨[⟨0, 7⟩], 1, 1⟩ : Hash_table Int).table[p]? = some e → e.id ≠ EMPTY_CELL) ∧
    ∀ fuel s0 r, HT_Search fuel (⟨[⟨0, 7⟩], 1, 1⟩ : Hash_table Int) 1 s0 ≠ .ret r := by
  refine ⟨by decide, by decide, by decide, by decide, ?_, ?_⟩
  · intro p e hp
    have hmem := List.getElem?_mem hp
    simp only [List.mem_singleton] at hmem
    subst hmem
    decide
  · intro fuel s0 r hs
    obtain ⟨_, _, d, e, _, _, he, hstop, _⟩ :=
      HT_Search_ret _ 1 s0 r fuel (by decide) (by decide) hs
    simp only [Nat.mod_one, List.getElem?_cons_zero, Option.some.injEq] at he
    subst he
    revert hstop
    decide

/-- C8 (as amended): in every table reachable from `HT_New( C )` through returning `HT_Insert`
calls `len <= capacity` holds; and while `len < capacity` still holds, at least one slot is
Empty and `HT_Search` (called with `len > 0`) returns for every non-negative `int` key,
stored or not, with any fuel above `C`. -/
theorem C8_len_bound_and_search_returns [Zero F] (C : Nat) (ht : Hash_table F)
    (hr : Reachable C ht) :
    ht.len ≤ ht.capacity ∧
    (ht.len < ht.capacity →
      (∃ (f : Nat) (ef : Entry_table F), ht.table[f]? = some ef ∧ ef.id = EMPTY_CELL) ∧
      ∀ k, 0 ≤ k → k ≤ INT_MAX → 0 < ht.len → ∀ s0 fuel, C < fuel →
        ∃ r, HT_Search fuel ht k s0 = .ret r) := by
  have hinv := hr.inv
  have hcap := hinv.cap
  constructor
  · rw [hinv.lenEq, hcap, ← hinv.size]
    exact List.countP_le_length _
  · intro hlen
    obtain ⟨f, ef, hf, hf0⟩ := exists_free_slot ht hinv (by omega)
    have hfE : ef.id = EMPTY_CELL := by
      rcases hinv.ids f ef hf with hE | ⟨h0, _⟩
      · exact hE
      · exact absurd h0 hf0
    refine ⟨⟨f, ef, hf, hfE⟩, ?_⟩
    intro k hk0 hk hlen0 s0 fuel hfuel
    have hC : 0 < C := by omega
    have hrC : k.toNat % C < C := Nat.mod_lt _ hC
    obtain ⟨d, e, hdC, hoth, he, hstop⟩ := exists_first_stop ht hinv.size
      (fun e => e.id = k ∨ e.id = EMPTY_CELL) f ef hf (Or.inr hfE) _ hrC
    have hoth' : ∀ j, j < d →
        ∃ e, ht.table[(k.toNat % C + j) % C]? = some e ∧ 0 ≤ e.id ∧ e.id ≠ k := by
      intro j hj
      obtain ⟨x, hx, hnx⟩ := hoth j hj
      rcases hinv.ids _ x hx with hE | ⟨h0, _⟩
      · exact absurd (Or.inr hE) hnx
      · exact ⟨x, hx, h0, fun h1 => hnx (Or.inl h1)⟩
    obtain ⟨_, hb⟩ := probe_no_overflow ht hinv f ef hf hf0 k hk0 hk d hoth'
    refine ⟨_, HT_Search_run ht k s0 hk0 hk hlen0 (by omega) d fuel (by omega)
      (by rw [hcap]; exact hb) ?_ e (by rw [hcap]; exact he) hstop⟩
    rw [hcap]
    intro j hj
    obtain ⟨x, hx, hnx⟩ := hoth j hj
    exact ⟨x, hx, fun h1 => hnx (Or.inl h1), fun h2 => hnx (Or.inr h2)⟩

theorem C8_len_bound_and_search_returns_witness :
    (⟨[⟨-1, 0⟩, ⟨4, 10⟩, ⟨-1, 0⟩], 3, 1⟩ : Hash_table Int).len
        ≤ (⟨[⟨-1, 0⟩, ⟨4, 10⟩, ⟨-1, 0⟩], 3, 1⟩ : Hash_table Int).capacity ∧
    ∃ r, HT_Search 4 (⟨[⟨-1, 0⟩, ⟨4, 10⟩, ⟨-1, 0⟩], 3, 1⟩ : Hash_table Int) 7 0 = .ret r :=
  ⟨(C8_len_bound_and_search_returns 3 ⟨[⟨-1, 0⟩, ⟨4, 10⟩, ⟨-1, 0⟩], 3, 1⟩
      (Reachable.insert 4 ⟨[⟨-1, 0⟩, ⟨-1, 0⟩, ⟨-1, 0⟩], 3, 0⟩ _ 4 10 true
        (Reachable.new 4 [⟨7, 1⟩, ⟨8, 2⟩, ⟨-5, 3⟩] _ rfl (by decide))
        (by decide) (by decide) (by decide))).1,
   ((C8_len_bound_and_search_returns 3 ⟨[⟨-1, 0⟩, ⟨4, 10⟩, ⟨-1, 0⟩], 3, 1⟩
      (Reachable.insert 4 ⟨[⟨-1, 0⟩, ⟨-1, 0⟩, ⟨-1, 0⟩], 3, 0⟩ _ 4 10 true
        (Reachable.new 4 [⟨7, 1⟩, ⟨8, 2⟩, ⟨-5, 3⟩] _ rfl (by decide))
        (by decide) (by decide) (by decide))).2 (by decide)).2
     7 (by decide) (by decide) (by decide) 0 4 (by decide)⟩

/-- C9: in every table reachable from `HT_New( C )` through returning `HT_Insert` calls of
non-negative keys, successful or not, `len` equals the number of Occupied slots (`id >= 0`)
and `len <= capacity`. -/
theorem C9_len_counts_occupied [Zero F] (C : Nat) (ht : Hash_table F) (hr : Reachable C ht) :
    ht.len = occupiedCount ht ∧ ht.len ≤ ht.capacity := by
  have hinv := hr.inv
  refine ⟨hinv.lenEq, ?_⟩
  rw [hinv.lenEq, hinv.cap, ← hinv.size]
  exact List.countP_le_length _

theorem C9_len_counts_occupied_witness :
    (⟨[⟨-1, 0⟩, ⟨4, 10⟩, ⟨-1, 0⟩], 3, 1⟩ : Hash_table Int).len
        = occupiedCount (⟨[⟨-1, 0⟩, ⟨4, 10⟩, ⟨-1, 0⟩], 3, 1⟩ : Hash_table Int) ∧
      (⟨[⟨-1, 0⟩, ⟨4, 10⟩, ⟨-1, 0⟩], 3, 1⟩ : Hash_table Int).len
        ≤ (⟨[⟨-1, 0⟩, ⟨4, 10⟩, ⟨-1, 0⟩], 3, 1⟩ : Hash_table Int).capacity :=
  C9_len_counts_occupied 3 ⟨[⟨-1, 0⟩, ⟨4, 10⟩, ⟨-1, 0⟩], 3, 1⟩
    (Reachable.insert 4 ⟨[⟨-1, 0⟩, ⟨-1, 0⟩, ⟨-1, 0⟩], 3, 0⟩ _ 4 10 true
      (Reachable.new 4 [⟨7, 1⟩, ⟨8, 2⟩, ⟨-5, 3⟩] _ rfl (by decide))
      (by decide) (by decide) (by decide))

/-- C10: in every table reachable from `HT_New( C )` through returning `HT_Insert` calls of
non-negative keys, no two distinct Occupied slots hold the same key. -/
theorem C10_no_duplicate_keys [Zero F] (C : Nat) (ht : Hash_table F) (hr : Reachable C ht)
    (p q : Nat) (e1 e2 : Entry_table F) (h1 : ht.table[p]? = some e1)
    (h2 : ht.table[q]? = some e2) (hpq : p ≠ q) (h0 : 0 ≤ e1.id) : e1.id ≠ e2.id := by
  intro heq
  apply hpq
  have hinv := hr.inv
  obtain ⟨j1, _, hp, hch1⟩ := hinv.chain p e1 h1 h0
  obtain ⟨j2, _, hq, hch2⟩ := hinv.chain q e2 h2 (heq ▸ h0)
  rw [← heq] at hq hch2
  rcases Nat.lt_trichotomy j1 j2 with hlt | heq' | hgt
  · exfalso
    obtain ⟨x, hx, _, hxk⟩ := hch2 j1 hlt
    rw [← hp, h1] at hx
    injection hx with hx
    subst hx
    exact hxk rfl
  · rw [hp, hq, heq']
  · exfalso
    obtain ⟨x, hx, _, hxk⟩ := hch1 j2 hgt
    rw [← hq, h2] at hx
    injection hx with hx
    subst hx
    exact hxk heq.symm

theorem C10_no_duplicate_keys_witness :
    (⟨4, 10⟩ : Entry_table Int).id ≠ (⟨7, 20⟩ : Entry_table Int).id :=
  C10_no_duplicate_keys 3 (⟨[⟨-1, 0⟩, ⟨4, 10⟩, ⟨7, 20⟩], 3, 2⟩ : Hash_table Int)
    (Reachable.insert 4 ⟨[⟨-1, 0⟩, ⟨4, 10⟩, ⟨-1, 0⟩], 3, 1⟩ _ 7 20 true
      (Reachable.insert 4 ⟨[⟨-1, 0⟩, ⟨-1, 0⟩, ⟨-1, 0⟩], 3, 0⟩ _ 4 10 true
        (Reachable.new 4 [⟨7, 1⟩, ⟨8, 2⟩, ⟨-5, 3⟩] _ rfl (by decide))
        (by decide) (by decide) (by decide))
      (by decide) (by decide) (by decide))
    1 2 ⟨4, 10⟩ ⟨7, 20⟩ rfl rfl (by decide) (by decide)

/-- C11 (what the code does): for the capacity `2 ^ 31 + 1`, with both allocations succeeding
and a slot array of `2 ^ 31 + 1` entries, `HT_New` returns no table of Empty slots.  Its loop
counter is an `int`: after slot `INT_MAX` has been written `++i` overflows, with slot
`2 ^ 31` still unwritten, and the call has no result; where the overflow wraps around to
`INT_MIN`, the counter read as a `size_t` is no longer below the capacity, the loop ends and
the table is returned with its last slot as `malloc` left it (here key 0), not Empty. -/
theorem C11_new_overflows_its_counter :
    (List.replicate 2147483649 (⟨0, 0⟩ : Entry_table Int)).length = 2147483649 ∧
    (∀ fuel, 2147483647 < fuel →
      HT_New fuel true (some (List.replicate 2147483649 (⟨0, 0⟩ : Entry_table Int))) 2147483649
        = .ub) ∧
    (∀ fuel r,
      HT_New fuel true (some (List.replicate 2147483649 (⟨0, 0⟩ : Entry_table Int))) 2147483649
        ≠ .ret (some r)) ∧
    addInt 2147483647 1 = .ub ∧ toInt (2147483647 + 1) = -2147483648 ∧
    ¬ toSizeT (-2147483648) < 2147483649 ∧
    ∀ fuel, 2147483649 ≤ fuel →
      ∃ ht : Hash_table Int,
        HT_New_wrap fuel true (some (List.replicate 2147483649 (⟨0, 0⟩ : Entry_table Int)))
          2147483649 = .ret (some ht) ∧
        ht.capacity = 2147483649 ∧ ht.len = 0 ∧ ht.table.length = 2147483649 ∧
        (∀ p : Nat, p < 2147483648 → ht.table[p]? = some ⟨EMPTY_CELL, 0⟩) ∧
        ht.table[2147483648]? = some ⟨0, 0⟩ := by
  refine ⟨List.length_replicate _ _, ?_, ?_, by decide, by decide, by decide, ?_⟩
  · intro fuel hfuel
    have hloop := HT_New_loop_overflow (F := Int) 2147483649 (by omega) 2147483647 0
      (List.replicate 2147483649 (⟨0, 0⟩ : Entry_table Int)) (le_refl _) (by omega)
      (List.length_replicate _ _) fuel hfuel
    unfold HT_New
    rw [if_pos rfl]
    simp only
    rw [hloop]
  · intro fuel r hnew
    have := (HT_New_ret 2147483649 fuel _ r (List.length_replicate _ _) hnew).1
    omega
  · intro fuel hfuel
    obtain ⟨t', hrun, hlen', hkeep, _, hset⟩ := HT_New_loop_wrap_run (F := Int) 2147483649
      (by omega) (by omega) 2147483647 0
      (List.replicate 2147483649 (⟨0, 0⟩ : Entry_table Int)) (le_refl _) (by omega)
      (List.length_replicate _ _) fuel (by omega)
    refine ⟨⟨t', 2147483649, 0⟩, ?_, rfl, rfl, hlen', ?_, ?_⟩
    · unfold HT_New_wrap
      rw [if_pos rfl]
      simp only
      rw [hrun]
    · intro p hp
      exact hset p (by omega) hp
    · show t'[2147483648]? = _
      rw [hkeep 2147483648 (le_refl _)]
      exact List.getElem?_replicate_of_lt (by omega)

/-- C12: whenever `HT_Insert( ht, k, v )` returns `true` (key a non-negative `int`), the table
after the call differs from the one before in exactly one slot, which was not Occupied and now
holds key `k` with value `v`; `len` has grown by exactly 1; the capacity, the number of slots
and every other slot are unchanged. -/
theorem C12_insert_changes_one_slot (ht ht' : Hash_table F) (k : Int) (v : F) (fuel : Nat)
    (hcap : ht.capacity ≤ SIZE_MAX) (hk0 : 0 ≤ k) (hk : k ≤ INT_MAX)
    (hins : HT_Insert fuel ht k v = .ret (true, ht')) :
    ∃ (p : Nat) (e : Entry_table F), ht.table[p]? = some e ∧ e.id < 0 ∧
      ht'.table[p]? = some ⟨k, v⟩ ∧ ht.table[p]? ≠ ht'.table[p]? ∧
      (∀ q, q ≠ p → ht'.table[q]? = ht.table[q]?) ∧
      ht'.table.length = ht.table.length ∧ ht'.len = ht.len + 1 ∧
      ht'.capacity = ht.capacity := by
  obtain ⟨hlen, d, e, _, _, _, he, _, hres⟩ := HT_Insert_ret ht ht' k v true fuel hk0 hk hins
  have h0 : ¬ 0 ≤ e.id := by
    intro h0
    rw [if_pos h0] at hres
    injection hres with hb _
    exact Bool.noConfusion hb
  rw [if_neg h0] at hres
  injection hres with _ hht
  subst hht
  have hplt := getElem?_lt he
  refine ⟨_, e, he, by omega, List.getElem?_set_self hplt, ?_, ?_, by simp, ?_, rfl⟩
  · simp only
    rw [he, List.getElem?_set_self hplt]
    intro heq
    injection heq with heq
    subst heq
    exact h0 hk0
  · intro q hq
    simp only
    exact List.getElem?_set_ne (fun h => hq h.symm)
  · simp only
    unfold SIZE_MAX at hcap
    omega

theorem C12_insert_changes_one_slot_witness :
    ∃ (p : Nat) (e : Entry_table Int),
      (⟨[⟨-1, 0⟩, ⟨7, 5⟩, ⟨-1, 0⟩], 3, 1⟩ : Hash_table Int).table[p]? = some e ∧ e.id < 0 ∧
      (⟨[⟨-1, 0⟩, ⟨7, 5⟩, ⟨4, 9⟩], 3, 2⟩ : Hash_table Int).table[p]? = some ⟨4, 9⟩ ∧
      (⟨[⟨-1, 0⟩, ⟨7, 5⟩, ⟨-1, 0⟩], 3, 1⟩ : Hash_table Int).table[p]?
        ≠ (⟨[⟨-1, 0⟩, ⟨7, 5⟩, ⟨4, 9⟩], 3, 2⟩ : Hash_table Int).table[p]? ∧
      (∀ q, q ≠ p → (⟨[⟨-1, 0⟩, ⟨7, 5⟩, ⟨4, 9⟩], 3, 2⟩ : Hash_table Int).table[q]?
        = (⟨[⟨-1, 0⟩, ⟨7, 5⟩, ⟨-1, 0⟩], 3, 1⟩ : Hash_table Int).table[q]?) ∧
      (⟨[⟨-1, 0⟩, ⟨7, 5⟩, ⟨4, 9⟩], 3, 2⟩ : Hash_table Int).table.length
        = (⟨[⟨-1, 0⟩, ⟨7, 5⟩, ⟨-1, 0⟩], 3, 1⟩ : Hash_table Int).table.length ∧
      (⟨[⟨-1, 0⟩, ⟨7, 5⟩, ⟨4, 9⟩], 3, 2⟩ : Hash_table Int).len
        = (⟨[⟨-1, 0⟩, ⟨7, 5⟩, ⟨-1, 0⟩], 3, 1⟩ : Hash_table Int).len + 1 ∧
      (⟨[⟨-1, 0⟩, ⟨7, 5⟩, ⟨4, 9⟩], 3, 2⟩ : Hash_table Int).capacity
        = (⟨[⟨-1, 0⟩, ⟨7, 5⟩, ⟨-1, 0⟩], 3, 1⟩ : Hash_table Int).capacity :=
  C12_insert_changes_one_slot ⟨[⟨-1, 0⟩, ⟨7, 5⟩, ⟨-1, 0⟩], 3, 1⟩
    ⟨[⟨-1, 0⟩, ⟨7, 5⟩, ⟨4, 9⟩], 3, 2⟩ 4 9 2 (by decide) (by decide) (by decide) (by decide)

/-- Counterexample to C13 as stated: on the fresh table of `HT_New( 1 )`, whose `len` is 0,
`HT_Search` stops at its `assert( ht->len > 0 )`; it does not return `false`. -/
theorem C13_counterexample :
    HT_New 2 true (some [⟨5, 5⟩]) 1 = .ret (some (⟨[⟨-1, 0⟩], 1, 0⟩ : Hash_table Int)) ∧
    (⟨[⟨-1, 0⟩], 1, 0⟩ : Hash_table Int).len = 0 ∧
    (∀ fuel s0, HT_Search fuel (⟨[⟨-1, 0⟩], 1, 0⟩ : Hash_table Int) 7 s0 = .assertFail) ∧
    ∀ fuel s0 r, HT_Search fuel (⟨[⟨-1, 0⟩], 1, 0⟩ : Hash_table Int) 7 s0 ≠ .ret r := by
  have hab : ∀ fuel s0, HT_Search fuel (⟨[⟨-1, 0⟩], 1, 0⟩ : Hash_table Int) 7 s0
      = .assertFail := by
    intro fuel s0
    unfold HT_Search
    rw [if_neg (by decide)]
  refine ⟨by decide, rfl, hab, ?_⟩
  intro fuel s0 r hs
  rw [hab] at hs
  exact Outcome.noConfusion hs

/-- C13 (as amended): for every table with `len == 0` and every key, `HT_Search` does not
return: it stops at its precondition check `assert( ht->len > 0 )`, which ends the program.
The code treats the search of an empty table as a precondition violation. -/
theorem C13_search_empty_table_asserts (ht : Hash_table F) (hlen : ht.len = 0) (k : Int)
    (s0 : F) (fuel : Nat) : HT_Search fuel ht k s0 = .assertFail := by
  unfold HT_Search
  rw [if_neg (by omega)]

theorem C13_search_empty_table_asserts_witness :
    HT_Search 5 (⟨[⟨-1, 0⟩, ⟨-1, 0⟩], 2, 0⟩ : Hash_table Int) 3 0 = .assertFail :=
  C13_search_empty_table_asserts ⟨[⟨-1, 0⟩, ⟨-1, 0⟩], 2, 0⟩ rfl 3 0 5

/-- C14 (demo scenario of `main`): `HT_New( 10 )` gives ten Empty slots; the six insertions
of `main` all return `true` and leave `len == 6`; then `HT_Search( 8765 )` returns `true` with
19876 and `HT_Search( 5000 )` returns `false`. -/
theorem C14_demo_scenario :
    HT_New 11 true (some (List.replicate 10 ⟨99, 99⟩)) 10
      = .ret (some (⟨List.replicate 10 ⟨-1, 0⟩, 10, 0⟩ : Hash_table Int)) ∧
    insertAll 11 (⟨List.replicate 10 ⟨-1, 0⟩, 10, 0⟩ : Hash_table Int)
        [(1234, 13500), (2345, 14650), (9876, 16560), (8765, 19876), (7650, 11000),
          (5665, 13500)]
      = .ret ([true, true, true, true, true, true], demoTable) ∧
    demoTable.len = 6 ∧
    HT_Search 11 demoTable 8765 0 = .ret (true, 19876) ∧
    HT_Search 11 demoTable 5000 0 = .ret (false, 0) := by
  decide

/-- C15 (collisions): for every capacity `C >= 2`, every reachable table with `len <= C - 2`
and every two distinct non-negative `int` keys absent from it and with the same home slot,
the two insertions both return `true`, the keys end up in two different slots at offsets
`j1 < j2 < C` of the probe sequence that starts at the common home slot, and afterwards each
key is found with its own value. -/
theorem C15_colliding_keys [Zero F] (C : Nat) (hC : 2 ≤ C) (ht : Hash_table F)
    (hr : Reachable C ht) (hlen : ht.len + 2 ≤ C) (k1 k2 : Int)
    (h10 : 0 ≤ k1) (h1m : k1 ≤ INT_MAX) (h20 : 0 ≤ k2) (h2m : k2 ≤ INT_MAX) (hne : k1 ≠ k2)
    (habs1 : ∀ (q : Nat) (e : Entry_table F), ht.table[q]? = some e → e.id ≠ k1)
    (habs2 : ∀ (q : Nat) (e : Entry_table F), ht.table[q]? = some e → e.id ≠ k2)
    (hhome : k1.toNat % C = k2.toNat % C) (v1 v2 : F) (fuel : Nat) (hfuel : C < fuel) :
    ∃ (ht1 ht2 : Hash_table F) (j1 j2 : Nat),
      HT_Insert fuel ht k1 v1 = .ret (true, ht1) ∧
      HT_Insert fuel ht1 k2 v2 = .ret (true, ht2) ∧
      j1 < j2 ∧ j2 < C ∧
      ht2.table[(k1.toNat % C + j1) % C]? = some ⟨k1, v1⟩ ∧
      ht2.table[(k1.toNat % C + j2) % C]? = some ⟨k2, v2⟩ ∧
      (k1.toNat % C + j1) % C ≠ (k1.toNat % C + j2) % C ∧
      ∀ s0, HT_Search fuel ht2 k1 s0 = .ret (true, v1) ∧
        HT_Search fuel ht2 k2 s0 = .ret (true, v2) := by
  have hinv := hr.inv
  have hcap := hinv.cap
  have hcmax := hinv.cmax
  -- first insertion
  obtain ⟨_, _, _, _, hins1⟩ := insert_fresh ht hinv (by omega) k1 h10 h1m habs1 v1 fuel hfuel
  obtain ⟨_, d1, x1, _, hb1, hoth1, he1, hne1, hres1⟩ :=
    HT_Insert_ret ht _ k1 v1 true fuel h10 h1m hins1
  have hx1 : ¬ 0 ≤ x1.id := fun h0 => hne1 ⟨h0, habs1 _ x1 he1⟩
  rw [hcap] at hb1 hoth1 he1
  have hP1 := getElem?_lt he1
  have hinv1 := Inv_insert ht _ k1 v1 true fuel hinv h10 h1m hins1
  generalize hg1 : (⟨ht.table.set _ ⟨k1, v1⟩, ht.capacity, ht.len + 1⟩ : Hash_table F) = ht1
    at hins1 hinv1 hres1
  rw [if_neg hx1] at hres1
  injection hres1 with _ hht1
  rw [hcap] at hht1
  have htab1 : ht1.table = ht.table.set ((k1.toNat % C + d1) % C) ⟨k1, v1⟩ := by
    rw [hht1]
  have hlen1 : ht1.len = ht.len + 1 := by
    rw [hht1]
    simp only
    omega
  have hcap1 : ht1.capacity = C := hinv1.cap
  have hs1 : ht1.table[(k1.toNat % C + d1) % C]? = some ⟨k1, v1⟩ := by
    rw [htab1]; exact List.getElem?_set_self hP1
  -- second insertion
  have habs2' : ∀ (q : Nat) (e : Entry_table F), ht1.table[q]? = some e → e.id ≠ k2 := by
    intro q e hq
    rw [htab1] at hq
    by_cases hqP : (k1.toNat % C + d1) % C = q
    · rw [← hqP, List.getElem?_set_self hP1] at hq
      injection hq with hq
      subst hq
      exact hne
    · rw [List.getElem?_set_ne hqP] at hq
      exact habs2 q e hq
  obtain ⟨_, _, _, _, hins2⟩ :=
    insert_fresh ht1 hinv1 (by omega) k2 h20 h2m habs2' v2 fuel hfuel
  obtain ⟨_, d2, x2, _, hb2, hoth2, he2, hne2, hres2⟩ :=
    HT_Insert_ret ht1 _ k2 v2 true fuel h20 h2m hins2
  have hx2 : ¬ 0 ≤ x2.id := fun h0 => hne2 ⟨h0, habs2' _ x2 he2⟩
  rw [hcap1, ← hhome] at hb2 hoth2 he2
  have hP2 := getElem?_lt he2
  generalize hg2 : (⟨ht1.table.set _ ⟨k2, v2⟩, ht1.capacity, ht1.len + 1⟩ : Hash_table F) = ht2
    at hins2 hres2
  rw [if_neg hx2] at hres2
  injection hres2 with _ hht2
  rw [hcap1, ← hhome] at hht2
  have htab2 : ht2.table = ht1.table.set ((k1.toNat % C + d2) % C) ⟨k2, v2⟩ := by
    rw [hht2]
  have hcap2 : ht2.capacity = C := by rw [hht2]
  have hlen2 : 0 < ht2.len := by
    rw [hht2]
    simp only
    omega
  -- the second key is placed behind the first
  have hd12 : d1 < d2 := by
    by_contra hle
    rcases Nat.lt_or_ge d2 d1 with hlt | hge
    · obtain ⟨y, hy, hy0, _⟩ := hoth1 d2 hlt
      have hy1 : ht1.table[(k1.toNat % C + d2) % C]? = some y := by
        rw [htab1]; exact set_keeps_occupied _ _ x1 _ he1 hx1 _ y hy hy0
      rw [he2] at hy1
      injection hy1 with hy1
      subst hy1
      exact hx2 hy0
    · have hd : d2 = d1 := by omega
      rw [hd, hs1] at he2
      injection he2 with he2
      subst he2
      exact hx2 h10
  obtain ⟨f, ef, hf, hf0⟩ := exists_free_slot ht1 hinv1 (by omega)
  obtain ⟨hd2C, _⟩ := probe_no_overflow ht1 hinv1 f ef hf hf0 k2 h20 h2m d2
    (by rw [← hhome]; exact hoth2)
  have hP12 : (k1.toNat % C + d1) % C ≠ (k1.toNat % C + d2) % C := by
    intro heq
    rw [← heq, hs1] at he2
    injection he2 with he2
    subst he2
    exact hx2 h10
  have hs21 : ht2.table[(k1.toNat % C + d1) % C]? = some ⟨k1, v1⟩ := by
    rw [htab2]; exact set_keeps_occupied _ _ x2 _ he2 hx2 _ _ hs1 h10
  have hs22 : ht2.table[(k1.toNat % C + d2) % C]? = some ⟨k2, v2⟩ := by
    rw [htab2]; exact List.getElem?_set_self hP2
  refine ⟨ht1, ht2, d1, d2, hins1, hins2, hd12, hd2C, hs21, hs22, hP12, ?_⟩
  intro s0
  constructor
  · apply search_found_at ht2 k1 s0 h10 h1m hlen2 (by omega) d1 fuel (by omega)
      (by rw [hcap2]; exact hb1)
    · rw [hcap2]
      intro j hj
      obtain ⟨y, hy, hy0, hyk⟩ := hoth1 j hj
      have hy1 : ht1.table[(k1.toNat % C + j) % C]? = some y := by
        rw [htab1]; exact set_keeps_occupied _ _ x1 _ he1 hx1 _ y hy hy0
      exact ⟨y, by rw [htab2]; exact set_keeps_occupied _ _ x2 _ he2 hx2 _ y hy1 hy0, hy0, hyk⟩
    · rw [hcap2]; exact hs21
  · apply search_found_at ht2 k2 s0 h20 h2m hlen2 (by omega) d2 fuel (by omega)
      (by rw [hcap2, ← hhome]; exact hb2)
    · rw [hcap2, ← hhome]
      intro j hj
      obtain ⟨y, hy, hy0, hyk⟩ := hoth2 j hj
      exact ⟨y, by rw [htab2]; exact set_keeps_occupied _ _ x2 _ he2 hx2 _ y hy hy0, hy0, hyk⟩
    · rw [hcap2, ← hhome]; exact hs22

theorem C15_colliding_keys_witness :
    ∃ (ht1 ht2 : Hash_table Int) (j1 j2 : Nat),
      HT_Insert 4 (⟨[⟨-1, 0⟩, ⟨-1, 0⟩, ⟨-1, 0⟩], 3, 0⟩ : Hash_table Int) 4 10
        = .ret (true, ht1) ∧
      HT_Insert 4 ht1 7 20 = .ret (true, ht2) ∧
      j1 < j2 ∧ j2 < 3 ∧
      ht2.table[((4 : Int).toNat % 3 + j1) % 3]? = some ⟨4, 10⟩ ∧
      ht2.table[((4 : Int).toNat % 3 + j2) % 3]? = some ⟨7, 20⟩ ∧
      ((4 : Int).toNat % 3 + j1) % 3 ≠ ((4 : Int).toNat % 3 + j2) % 3 ∧
      ∀ s0, HT_Search 4 ht2 4 s0 = .ret (true, 10) ∧ HT_Search 4 ht2 7 s0 = .ret (true, 20) :=
  C15_colliding_keys 3 (by decide) (⟨[⟨-1, 0⟩, ⟨-1, 0⟩, ⟨-1, 0⟩], 3, 0⟩ : Hash_table Int)
    (Reachable.new 4 [⟨7, 1⟩, ⟨8, 2⟩, ⟨-5, 3⟩] _ rfl (by decide)) (by decide)
    4 7 (by decide) (by decide) (by decide) (by decide) (by decide)
    (by
      intro q e hq
      have hmem := List.getElem?_mem hq
      simp only [List.mem_cons, List.mem_singleton, List.not_mem_nil, or_false] at hmem
      rcases hmem with rfl | rfl | rfl <;> decide)
    (by
      intro q e hq
      have hmem := List.getElem?_mem hq
      simp only [List.mem_cons, List.mem_singleton, List.not_mem_nil, or_false] at hmem
      rcases hmem with rfl | rfl | rfl <;> decide)
    (by decide) 10 20 4 (by decide)

/-- Counterexample to C16 as stated: with the capacity `m = INT_MAX` and the key 2147483646
(home slot 2147483646), `probe` at the attempt index `INT_MAX` gives `INT_MIN`, not
`INT_MAX + 1`, and the position of attempt 1 is never computed: `home + 2` overflows `int`. -/
theorem C16_counterexample :
    ((0 : Int) ≤ 2147483646 ∧ (2147483646 : Int) ≤ INT_MAX) ∧
    h 2147483646 2147483647 = .ret 2147483646 ∧
    probe 2147483646 2147483647 = -2147483648 ∧
    advance 2147483647 2147483646 2147483646 1 = .ub := by
  refine ⟨by decide, by decide, by decide, by decide⟩

/-- C16 (as amended): for every non-negative `int` key and every capacity `m > 0`, `h` returns
the mathematical remainder `key mod m`, which lies in `[0, m)`; `probe( key, i )` equals
`i + 1` for every key and every attempt index with `i + 1 <= INT_MAX`; and whenever
`home + i + 1 <= INT_MAX` the position examined at attempt `i` is `(home + i + 1) mod m`,
a valid slot index (and the attempt index becomes `i + 1`). -/
theorem C16_hash_and_probe (key : Int) (hk0 : 0 ≤ key) (hk : key ≤ INT_MAX) (m : Nat)
    (hm : 0 < m) :
    (∃ r : Nat, h key m = .ret (r : Int) ∧ (r : Int) = key % (m : Int) ∧ r < m) ∧
    (∀ (k' : Int) (i : Nat), i + 1 ≤ 2147483647 → probe k' i = (i : Int) + 1) ∧
    (∀ (i : Nat), key.toNat % m + i + 1 ≤ 2147483647 →
      advance m key ((key.toNat % m : Nat) : Int) (i : Int)
        = .ret ((((key.toNat % m + i + 1) % m : Nat) : Int), (i : Int) + 1) ∧
      (key.toNat % m + i + 1) % m < m) := by
  refine ⟨⟨key.toNat % m, h_nonneg hk0 hk hm, ?_, Nat.mod_lt _ hm⟩, ?_, ?_⟩
  · rw [Int.natCast_mod, Int.toNat_of_nonneg hk0]
  · intro k' i hi
    unfold probe
    rw [show (i + 1) % 18446744073709551616 = i + 1 by omega, toInt_small hi]
    push_cast
    rfl
  · intro i hi
    refine ⟨?_, Nat.mod_lt _ hm⟩
    rw [advance_eq key hm hi]
    push_cast
    rfl

theorem C16_hash_and_probe_witness :
    (∃ r : Nat, h 8765 10 = .ret (r : Int) ∧ (r : Int) = 8765 % ((10 : Nat) : Int) ∧ r < 10) ∧
    (∀ (k' : Int) (i : Nat), i + 1 ≤ 2147483647 → probe k' i = (i : Int) + 1) ∧
    (∀ (i : Nat), (8765 : Int).toNat % 10 + i + 1 ≤ 2147483647 →
      advance 10 8765 (((8765 : Int).toNat % 10 : Nat) : Int) (i : Int)
        = .ret (((((8765 : Int).toNat % 10 + i + 1) % 10 : Nat) : Int), (i : Int) + 1) ∧
      ((8765 : Int).toNat % 10 + i + 1) % 10 < 10) :=
  C16_hash_and_probe 8765 (by decide) (by decide) 10 (by decide)

/-- C17: whenever `HT_Insert( ht, k, v )` returns `true` (key a non-negative `int`), the slot
it writes is the first one, in the cyclic order `home, home + 1, ...` modulo the capacity
with `home = k mod capacity`, that is not Occupied; every slot before it in that order is
Occupied with a key different from `k`. -/
theorem C17_insert_writes_first_free_slot (ht ht' : Hash_table F) (k : Int) (v : F)
    (fuel : Nat) (hk0 : 0 ≤ k) (hk : k ≤ INT_MAX)
    (hins : HT_Insert fuel ht k v = .ret (true, ht')) :
    ∃ (d : Nat) (e : Entry_table F), d < ht.capacity ∧
      (∀ j, j < d → ∃ e', ht.table[(k.toNat % ht.capacity + j) % ht.capacity]? = some e' ∧
        0 ≤ e'.id ∧ e'.id ≠ k) ∧
      ht.table[(k.toNat % ht.capacity + d) % ht.capacity]? = some e ∧ e.id < 0 ∧
      ht'.table = ht.table.set ((k.toNat % ht.capacity + d) % ht.capacity) ⟨k, v⟩ := by
  obtain ⟨hlen, d, e, _, _, hoth, he, _, hres⟩ := HT_Insert_ret ht ht' k v true fuel hk0 hk hins
  have h0 : ¬ 0 ≤ e.id := by
    intro h0
    rw [if_pos h0] at hres
    injection hres with hb _
    exact Bool.noConfusion hb
  rw [if_neg h0] at hres
  injection hres with _ hht
  subst hht
  refine ⟨d, e, ?_, hoth, he, by omega, rfl⟩
  by_contra hge
  obtain ⟨x, hx, hx0, _⟩ := hoth (d - ht.capacity) (by omega)
  have hsame : (k.toNat % ht.capacity + (d - ht.capacity)) % ht.capacity
      = (k.toNat % ht.capacity + d) % ht.capacity := by
    rw [← Nat.add_mod_right (k.toNat % ht.capacity + (d - ht.capacity)) ht.capacity]
    congr 1
    omega
  rw [hsame, he] at hx
  injection hx with hx
  subst hx
  exact h0 hx0

theorem C17_insert_writes_first_free_slot_witness :
    ∃ (d : Nat) (e : Entry_table Int),
      d < (⟨[⟨-1, 0⟩, ⟨7, 5⟩, ⟨-1, 0⟩], 3, 1⟩ : Hash_table Int).capacity ∧
      (∀ j, j < d → ∃ e', (⟨[⟨-1, 0⟩, ⟨7, 5⟩, ⟨-1, 0⟩], 3, 1⟩ : Hash_table Int).table[
          ((4 : Int).toNat % (⟨[⟨-1, 0⟩, ⟨7, 5⟩, ⟨-1, 0⟩], 3, 1⟩ : Hash_table Int).capacity + j)
            % (⟨[⟨-1, 0⟩, ⟨7, 5⟩, ⟨-1, 0⟩], 3, 1⟩ : Hash_table Int).capacity]? = some e' ∧
        0 ≤ e'.id ∧ e'.id ≠ 4) ∧
      (⟨[⟨-1, 0⟩, ⟨7, 5⟩, ⟨-1, 0⟩], 3, 1⟩ : Hash_table Int).table[
          ((4 : Int).toNat % (⟨[⟨-1, 0⟩, ⟨7, 5⟩, ⟨-1, 0⟩], 3, 1⟩ : Hash_table Int).capacity + d)
            % (⟨[⟨-1, 0⟩, ⟨7, 5⟩, ⟨-1, 0⟩], 3, 1⟩ : Hash_table Int).capacity]? = some e ∧
      e.id < 0 ∧
      (⟨[⟨-1, 0⟩, ⟨7, 5⟩, ⟨4, 9⟩], 3, 2⟩ : Hash_table Int).table
        = (⟨[⟨-1, 0⟩, ⟨7, 5⟩, ⟨-1, 0⟩], 3, 1⟩ : Hash_table Int).table.set
          (((4 : Int).toNat % (⟨[⟨-1, 0⟩, ⟨7, 5⟩, ⟨-1, 0⟩], 3, 1⟩ : Hash_table Int).capacity + d)
            % (⟨[⟨-1, 0⟩, ⟨7, 5⟩, ⟨-1, 0⟩], 3, 1⟩ : Hash_table Int).capacity) ⟨4, 9⟩ :=
  C17_insert_writes_first_free_slot ⟨[⟨-1, 0⟩, ⟨7, 5⟩, ⟨-1, 0⟩], 3, 1⟩
    ⟨[⟨-1, 0⟩, ⟨7, 5⟩, ⟨4, 9⟩], 3, 2⟩ 4 9 2 (by decide) (by decide) (by decide)

/-- Counterexample to C18 as stated: in the table `hugeTableStored` (`len > 0`) the key
2147483646 has its home in the last slot; the slots at the offsets 0 and 1 of its probe
sequence are Deleted and the slot at offset 2, slot 1, holds the key with value 7, so the
claim promises `true` with 7.  After the slots 2147483646 and 0 the search computes
`home + 2 = 2147483648`, which overflows `int`: the call has no result, and where the
addition wraps around to `INT_MIN` the next position is
`(2^64 - 2^31) mod capacity = 3`, the Empty slot, and the call returns `false`. -/
theorem C18_counterexample :
    hugeTableStored.table.length = hugeTableStored.capacity ∧ 0 < hugeTableStored.len ∧
    ((0 : Int) ≤ 2147483646 ∧ (2147483646 : Int) ≤ INT_MAX) ∧
    (2147483646 : Int).toNat % hugeTableStored.capacity = 2147483646 ∧
    hugeTableStored.table[(2147483646 + 0) % 2147483647]? = some ⟨DELETED_CELL, 0⟩ ∧
    hugeTableStored.table[(2147483646 + 1) % 2147483647]? = some ⟨DELETED_CELL, 0⟩ ∧
    hugeTableStored.table[(2147483646 + 2) % 2147483647]? = some ⟨2147483646, 7⟩ ∧
    (∀ fuel s0, 2 ≤ fuel → HT_Search fuel hugeTableStored 2147483646 s0 = .ub) ∧
    (∀ fuel s0 r, HT_Search fuel hugeTableStored 2147483646 s0 ≠ .ret r) ∧
    addInt 2147483646 (probe 2147483646 1) = .ub ∧
    toInt (2147483646 + 2) = -2147483648 ∧
    toSizeT (-2147483648) % hugeTableStored.capacity = 3 ∧
    hugeTableStored.table[3]? = some ⟨EMPTY_CELL, 0⟩ ∧
    ∀ fuel s0, 3 ≤ fuel → HT_Search_wrap fuel hugeTableStored 2147483646 s0
      = .ret (false, s0) := by
  have hhome : (2147483646 : Int).toNat % hugeTableStored.capacity = 2147483646 := by
    rw [hugeTableStored_cap]
    omega
  have hs0 : hugeTableStored.table[(2147483646 + 0) % 2147483647]?
      = some ⟨DELETED_CELL, 0⟩ := by
    rw [show (2147483646 + 0) % 2147483647 = 2147483646 by norm_num]
    exact hugeTableStored_last
  have hs1 : hugeTableStored.table[(2147483646 + 1) % 2147483647]?
      = some ⟨DELETED_CELL, 0⟩ := by
    rw [show (2147483646 + 1) % 2147483647 = 0 by norm_num]
    exact hugeTableStored_zero
  have hs2 : hugeTableStored.table[(2147483646 + 2) % 2147483647]?
      = some ⟨2147483646, 7⟩ := by
    rw [show (2147483646 + 2) % 2147483647 = 1 by norm_num]
    exact hugeTableStored_one
  refine ⟨?_, ?_, ?_, hhome, hs0, hs1, hs2, ?_, ?_, by decide, by decide, ?_,
    hugeTableStored_three, ?_⟩
  · rw [hugeTableStored_cap]
    unfold hugeTableStored
    simp only
    rw [List.length_cons, List.length_cons, List.length_cons, List.length_cons,
      List.length_replicate]
  · rw [hugeTableStored_len]
    omega
  · unfold INT_MAX; omega
  · intro fuel s0 hfuel
    apply HT_Search_overflow hugeTableStored 2147483646 s0 (by omega)
      (by unfold INT_MAX; omega) (by rw [hugeTableStored_len]; omega)
      (by rw [hugeTableStored_cap]; omega) 1 fuel (by omega)
    · rw [hhome]
    · intro j hj
      rw [hhome, hugeTableStored_cap]
      rcases Nat.le_one_iff_eq_zero_or_eq_one.mp hj with rfl | rfl
      · exact ⟨⟨DELETED_CELL, 0⟩, hs0, by simp [DELETED_CELL], by simp [DELETED_CELL, EMPTY_CELL]⟩
      · exact ⟨⟨DELETED_CELL, 0⟩, hs1, by simp [DELETED_CELL], by simp [DELETED_CELL, EMPTY_CELL]⟩
  · intro fuel s0 r hs
    obtain ⟨_, _, d, e, hb, _, he, hstop, _⟩ :=
      HT_Search_ret hugeTableStored 2147483646 s0 r fuel (by omega) (by unfold INT_MAX; omega) hs
    rw [hhome] at hb he
    rw [hugeTableStored_cap] at he
    have hd : d = 0 ∨ d = 1 := by omega
    rcases hd with rfl | rfl
    · rw [hs0] at he
      injection he with he
      subst he
      revert hstop
      simp [DELETED_CELL, EMPTY_CELL]
    · rw [hs1] at he
      injection he with he
      subst he
      revert hstop
      simp [DELETED_CELL, EMPTY_CELL]
  · rw [hugeTableStored_cap]
    decide
  · intro fuel s0 hfuel
    have hsize : hugeTableStored.table.length = hugeTableStored.capacity := by
      rw [hugeTableStored_cap]
      unfold hugeTableStored
      simp only
      rw [List.length_cons, List.length_cons, List.length_cons, List.length_cons,
        List.length_replicate]
    obtain ⟨w0, w1, w2⟩ := wrapPos_lastSlot
    refine HT_Search_wrap_run hugeTableStored 2147483646 s0 (by omega)
      (by unfold INT_MAX; omega) (by rw [hugeTableStored_len]; omega) hsize
      (by rw [hugeTableStored_cap]; omega) (by rw [hugeTableStored_cap]; omega) 2 fuel
      (by omega) ?_ ?_
    · intro t' ht' e he
      rw [hugeTableStored_cap] at he
      have hcases : t' = 0 ∨ t' = 1 ∨ t' = 2 := by omega
      rcases hcases with rfl | rfl | rfl
      · rw [w0, cellAt_ofNat, hugeTableStored_last] at he
        injection he with he
        subst he
        simp [DELETED_CELL]
      · rw [w1, cellAt_ofNat, hugeTableStored_zero] at he
        injection he with he
        subst he
        simp [DELETED_CELL]
      · rw [w2, cellAt_ofNat, hugeTableStored_three] at he
        injection he with he
        subst he
        simp [EMPTY_CELL]
    · rw [hugeTableStored_cap, w2, cellAt_ofNat]
      exact ⟨_, hugeTableStored_three, rfl⟩

/-- C18 (as amended): Deleted slots do not end a search.  In every table state with `len > 0`
and for every non-negative `int` key `k` and offset `j` with `home + j <= INT_MAX`, where
`home = k mod capacity`: when every slot at an offset below `j` of the probe sequence of `k`
is neither Empty nor holds `k` (it is Deleted or holds another key), then `HT_Search` returns
`true` with the value of the slot at offset `j` if that slot holds `k`, and returns `false`
if that slot is Empty (any fuel above `j` is enough). -/
theorem C18_search_passes_deleted_slots (ht : Hash_table F)
    (hsize : ht.table.length = ht.capacity) (hlen : 0 < ht.len)
    (k : Int) (hk0 : 0 ≤ k) (hk : k ≤ INT_MAX) (s0 : F) (j : Nat)
    (hb : k.toNat % ht.capacity + j ≤ 2147483647)
    (hbefore : ∀ j', j' < j →
      ∃ e', ht.table[(k.toNat % ht.capacity + j') % ht.capacity]? = some e' ∧
        e'.id ≠ EMPTY_CELL ∧ e'.id ≠ k)
    (e : Entry_table F) (he : ht.table[(k.toNat % ht.capacity + j) % ht.capacity]? = some e)
    (fuel : Nat) (hfuel : j < fuel) :
    (e.id = k → HT_Search fuel ht k s0 = .ret (true, e.salary)) ∧
    (e.id = EMPTY_CELL → HT_Search fuel ht k s0 = .ret (false, s0)) := by
  have hC : 0 < ht.capacity := by have := getElem?_lt he; omega
  have hrun : (e.id = k ∨ e.id = EMPTY_CELL) →
      HT_Search fuel ht k s0 = .ret (if e.id = k then (true, e.salary) else (false, s0)) := by
    intro hstop
    exact HT_Search_run ht k s0 hk0 hk hlen hC j fuel hfuel hb
      (by
        intro j' hj'
        obtain ⟨x, hx, hxE, hxk⟩ := hbefore j' hj'
        exact ⟨x, hx, hxk, hxE⟩)
      e he hstop
  constructor
  · intro hke
    rw [hrun (Or.inl hke), if_pos hke]
  · intro hE
    have hke : e.id ≠ k := by
      rw [hE]; unfold EMPTY_CELL; omega
    rw [hrun (Or.inr hE), if_neg hke]

theorem C18_search_passes_deleted_slots_witness :
    HT_Search 4 (⟨[⟨5, 9⟩, ⟨-1, 0⟩, ⟨-2, 0⟩], 3, 1⟩ : Hash_table Int) 5 0 = .ret (true, 9) ∧
    HT_Search 4 (⟨[⟨5, 9⟩, ⟨-1, 0⟩, ⟨-2, 0⟩], 3, 1⟩ : Hash_table Int) 8 0 = .ret (false, 0) :=
  ⟨(C18_search_passes_deleted_slots ⟨[⟨5, 9⟩, ⟨-1, 0⟩, ⟨-2, 0⟩], 3, 1⟩ rfl
      (by decide) 5 (by decide) (by decide) 0 1 (by decide)
      (by
        intro j' hj'
        have hj0 : j' = 0 := by omega
        subst hj0
        exact ⟨⟨-2, 0⟩, by decide, by decide, by decide⟩)
      ⟨5, 9⟩ (by decide) 4 (by decide)).1 rfl,
   (C18_search_passes_deleted_slots ⟨[⟨5, 9⟩, ⟨-1, 0⟩, ⟨-2, 0⟩], 3, 1⟩ rfl
      (by decide) 8 (by decide) (by decide) 0 2 (by decide)
      (by
        intro j' hj'
        have hj01 : j' = 0 ∨ j' = 1 := by omega
        rcases hj01 with rfl | rfl
        · exact ⟨⟨-2, 0⟩, by decide, by decide, by decide⟩
        · exact ⟨⟨5, 9⟩, by decide, by decide, by decide⟩)
      ⟨-1, 0⟩ (by decide) 4 (by decide)).2 rfl⟩

/-- Counterexample to C19 as stated.  First, on the table with the slots Deleted, (3, 5), Empty
(capacity 3, `len` 1) the key 3 is stored at offset 1 of its probe sequence behind the Deleted
home slot: `HT_Search` passes the Deleted slot and finds it, but `HT_Insert( ht, 3, 9 )` stops
at the Deleted slot, writes the pair there and returns `true`, leaving the key stored in two
slots.  Second, on the table `hugeTableDup`, which has no Deleted slot, the key 2147483646 is
stored at offset 2 behind two slots Occupied with other keys; after these the scan computes
`home + 2 = 2147483648`, which overflows `int`: the call has no result, and where the addition
wraps around to `INT_MIN` the next position is `(2^64 - 2^31) mod capacity = 3`, the Empty
slot, into which the key is written a second time, and the call returns `true`. -/
theorem C19_counterexample :
    ((3 : Int).toNat % 3 = 0 ∧
      (⟨[⟨-2, 0⟩, ⟨3, 5⟩, ⟨-1, 0⟩], 3, 1⟩ : Hash_table Int).len
        < (⟨[⟨-2, 0⟩, ⟨3, 5⟩, ⟨-1, 0⟩], 3, 1⟩ : Hash_table Int).capacity ∧
      HT_Search 4 (⟨[⟨-2, 0⟩, ⟨3, 5⟩, ⟨-1, 0⟩], 3, 1⟩ : Hash_table Int) 3 0 = .ret (true, 5) ∧
      HT_Insert 4 (⟨[⟨-2, 0⟩, ⟨3, 5⟩, ⟨-1, 0⟩], 3, 1⟩ : Hash_table Int) 3 9
        = .ret (true, ⟨[⟨3, 9⟩, ⟨3, 5⟩, ⟨-1, 0⟩], 3, 2⟩)) ∧
    (hugeTableDup.table.length = hugeTableDup.capacity ∧
      hugeTableDup.len < hugeTableDup.capacity ∧
      (2147483646 : Int).toNat % hugeTableDup.capacity = 2147483646 ∧
      hugeTableDup.table[(2147483646 + 0) % 2147483647]? = some ⟨6, 0⟩ ∧
      hugeTableDup.table[(2147483646 + 1) % 2147483647]? = some ⟨0, 0⟩ ∧
      hugeTableDup.table[(2147483646 + 2) % 2147483647]? = some ⟨2147483646, 5⟩ ∧
      (∀ fuel v, 2 ≤ fuel → HT_Insert fuel hugeTableDup 2147483646 v = .ub) ∧
      (∀ fuel v r, HT_Insert fuel hugeTableDup 2147483646 v ≠ .ret r) ∧
      addInt 2147483646 (probe 2147483646 1) = .ub ∧
      toInt (2147483646 + 2) = -2147483648 ∧
      toSizeT (-2147483648) % hugeTableDup.capacity = 3 ∧
      hugeTableDup.table[3]? = some ⟨EMPTY_CELL, 0⟩ ∧
      ∀ fuel v, 3 ≤ fuel → HT_Insert_wrap fuel hugeTableDup 2147483646 v
        = .ret (true, ⟨hugeTableDup.table.set 3 ⟨2147483646, v⟩, 2147483647, 2147483647⟩)) := by
  have hhome : (2147483646 : Int).toNat % hugeTableDup.capacity = 2147483646 := by
    rw [hugeTableDup_cap]
    omega
  have hs0 : hugeTableDup.table[(2147483646 + 0) % 2147483647]? = some ⟨6, 0⟩ := by
    rw [show (2147483646 + 0) % 2147483647 = 2147483646 by norm_num]
    exact hugeTableDup_last
  have hs1 : hugeTableDup.table[(2147483646 + 1) % 2147483647]? = some ⟨0, 0⟩ := by
    rw [show (2147483646 + 1) % 2147483647 = 0 by norm_num]
    exact hugeTableDup_zero
  have hs2 : hugeTableDup.table[(2147483646 + 2) % 2147483647]?
      = some ⟨2147483646, 5⟩ := by
    rw [show (2147483646 + 2) % 2147483647 = 1 by norm_num]
    exact hugeTableDup_one
  have hlen : hugeTableDup.len < hugeTableDup.capacity := by
    rw [hugeTableDup_len, hugeTableDup_cap]
    omega
  refine ⟨by decide, ?_, hlen, hhome, hs0, hs1, hs2, ?_, ?_, by decide, by decide, ?_,
    hugeTableDup_three, ?_⟩
  · rw [hugeTableDup_cap]
    unfold hugeTableDup
    simp only
    rw [List.length_cons, List.length_cons, List.length_cons, List.length_cons,
      List.length_replicate]
  · intro fuel v hfuel
    apply HT_Insert_overflow hugeTableDup 2147483646 v (by omega)
      (by unfold INT_MAX; omega) hlen 1 fuel (by omega)
    · rw [hhome]
    · intro j hj
      rw [hhome, hugeTableDup_cap]
      rcases Nat.le_one_iff_eq_zero_or_eq_one.mp hj with rfl | rfl
      · exact ⟨⟨6, 0⟩, hs0, by simp, by simp⟩
      · exact ⟨⟨0, 0⟩, hs1, by simp, by simp⟩
  · intro fuel v r hs
    obtain ⟨_, d, e, _, hb, _, he, hstop, _⟩ :=
      HT_Insert_ret hugeTableDup r.2 2147483646 v r.1 fuel (by omega)
        (by unfold INT_MAX; omega) hs
    rw [hhome] at hb he
    rw [hugeTableDup_cap] at he
    have hd : d = 0 ∨ d = 1 := by omega
    rcases hd with rfl | rfl
    · rw [hs0] at he
      injection he with he
      subst he
      revert hstop
      simp
    · rw [hs1] at he
      injection he with he
      subst he
      revert hstop
      simp
  · rw [hugeTableDup_cap]
    decide
  · intro fuel v hfuel
    obtain ⟨w0, w1, w2⟩ := wrapPos_lastSlot
    have hrun := HT_Insert_wrap_run hugeTableDup 2147483646 v (by omega)
      (by unfold INT_MAX; omega) hlen 2 fuel (by omega)
      (by
        intro t' ht'
        rw [hugeTableDup_cap]
        have hcases : t' = 0 ∨ t' = 1 := by omega
        rcases hcases with rfl | rfl
        · rw [w0, cellAt_ofNat]
          exact ⟨_, hugeTableDup_last, by simp, by simp⟩
        · rw [w1, cellAt_ofNat]
          exact ⟨_, hugeTableDup_zero, by simp, by simp⟩)
      (by
        rw [hugeTableDup_cap, w2, cellAt_ofNat]
        exact ⟨_, hugeTableDup_three, by simp [EMPTY_CELL]⟩)
    rw [hrun, hugeTableDup_cap, w2, hugeTableDup_len]
    rfl

/-- C19 (as amended): the duplicate check of `HT_Insert` runs through Occupied slots only.  In
every table state with `len < capacity` and for every non-negative `int` key `k` and offset
`j` with `home + j <= INT_MAX`, where `home = k mod capacity`: when every slot at an offset
below `j` of the probe sequence of `k` is Occupied with a key different from `k`, then
`HT_Insert( ht, k, v )` returns `false` and changes nothing if the slot at offset `j` holds
`k`; and if that slot is not Occupied (Empty or Deleted) the call writes the pair there,
increments `len` and returns `true`, whatever the slots behind it hold (any fuel above `j` is
enough). -/
theorem C19_insert_checks_occupied_slots (ht : Hash_table F)
    (hcap : ht.capacity ≤ SIZE_MAX) (hlen : ht.len < ht.capacity)
    (k : Int) (hk0 : 0 ≤ k) (hk : k ≤ INT_MAX) (v : F) (j : Nat)
    (hb : k.toNat % ht.capacity + j ≤ 2147483647)
    (hbefore : ∀ j', j' < j →
      ∃ e', ht.table[(k.toNat % ht.capacity + j') % ht.capacity]? = some e' ∧
        0 ≤ e'.id ∧ e'.id ≠ k)
    (e : Entry_table F) (he : ht.table[(k.toNat % ht.capacity + j) % ht.capacity]? = some e)
    (fuel : Nat) (hfuel : j < fuel) :
    (e.id = k → HT_Insert fuel ht k v = .ret (false, ht)) ∧
    (e.id < 0 → HT_Insert fuel ht k v
      = .ret (true, ⟨ht.table.set ((k.toNat % ht.capacity + j) % ht.capacity) ⟨k, v⟩,
          ht.capacity, ht.len + 1⟩)) := by
  constructor
  · intro hke
    have h0 : 0 ≤ e.id := by rw [hke]; exact hk0
    rw [HT_Insert_run ht k v hk0 hk hlen j fuel hfuel hb hbefore e he (fun hx => hx.2 hke),
      if_pos h0]
  · intro hneg
    have h0 : ¬ 0 ≤ e.id := by omega
    rw [HT_Insert_run ht k v hk0 hk hlen j fuel hfuel hb hbefore e he (fun hx => h0 hx.1),
      if_neg h0]
    have hmod : (ht.len + 1) % 18446744073709551616 = ht.len + 1 := by
      apply Nat.mod_eq_of_lt
      unfold SIZE_MAX at hcap
      omega
    rw [hmod]

theorem C19_insert_checks_occupied_slots_witness :
    HT_Insert 4 (⟨[⟨3, 1⟩, ⟨6, 5⟩, ⟨-1, 0⟩], 3, 2⟩ : Hash_table Int) 6 9
      = .ret (false, ⟨[⟨3, 1⟩, ⟨6, 5⟩, ⟨-1, 0⟩], 3, 2⟩) ∧
    HT_Insert 4 (⟨[⟨-2, 0⟩, ⟨3, 5⟩, ⟨-1, 0⟩], 3, 1⟩ : Hash_table Int) 3 9
      = .ret (true, ⟨[⟨3, 9⟩, ⟨3, 5⟩, ⟨-1, 0⟩], 3, 2⟩) :=
  ⟨(C19_insert_checks_occupied_slots ⟨[⟨3, 1⟩, ⟨6, 5⟩, ⟨-1, 0⟩], 3, 2⟩ (by decide)
      (by decide) 6 (by decide) (by decide) 9 1 (by decide)
      (by
        intro j' hj'
        have hj0 : j' = 0 := by omega
        subst hj0
        exact ⟨⟨3, 1⟩, by decide, by decide, by decide⟩)
      ⟨6, 5⟩ (by decide) 4 (by decide)).1 rfl,
   (C19_insert_checks_occupied_slots ⟨[⟨-2, 0⟩, ⟨3, 5⟩, ⟨-1, 0⟩], 3, 1⟩ (by decide)
      (by decide) 3 (by decide) (by decide) 9 0 (by decide)
      (by
        intro j' hj'
        omega)
      ⟨-2, 0⟩ (by decide) 4 (by decide)).2 (by decide)⟩

/-- C20 (probe-chain invariant): in every table reachable from `HT_New( C )` through returning
`HT_Insert` calls of non-negative keys, every Occupied slot `p` with key `k` lies at an offset
`j < C` of the probe sequence of `k`, that is `p == (k mod C + j) mod C`, and every slot at
the offsets `0 .. j-1` is Occupied with a key different from `k`: no Empty or Deleted slot
lies between the home slot of a key and the slot that stores it. -/
theorem C20_probe_chain_invariant [Zero F] (C : Nat) (ht : Hash_table F) (hr : Reachable C ht)
    (p : Nat) (e : Entry_table F) (hp : ht.table[p]? = some e) (h0 : 0 ≤ e.id) :
    ∃ j, j < C ∧ p = (e.id.toNat % C + j) % C ∧
      ∀ j', j' < j → ∃ e' : Entry_table F, ht.table[(e.id.toNat % C + j') % C]? = some e' ∧
        0 ≤ e'.id ∧ e'.id ≠ e.id :=
  hr.inv.chain p e hp h0

theorem C20_probe_chain_invariant_witness :
    ∃ j, j < 3 ∧ 2 = ((⟨7, 20⟩ : Entry_table Int).id.toNat % 3 + j) % 3 ∧
      ∀ j', j' < j → ∃ e' : Entry_table Int,
        (⟨[⟨-1, 0⟩, ⟨4, 10⟩, ⟨7, 20⟩], 3, 2⟩ : Hash_table Int).table[
          ((⟨7, 20⟩ : Entry_table Int).id.toNat % 3 + j') % 3]? = some e' ∧
        0 ≤ e'.id ∧ e'.id ≠ (⟨7, 20⟩ : Entry_table Int).id :=
  C20_probe_chain_invariant 3 (⟨[⟨-1, 0⟩, ⟨4, 10⟩, ⟨7, 20⟩], 3, 2⟩ : Hash_table Int)
    (Reachable.insert 4 ⟨[⟨-1, 0⟩, ⟨4, 10⟩, ⟨-1, 0⟩], 3, 1⟩ _ 7 20 true
      (Reachable.insert 4 ⟨[⟨-1, 0⟩, ⟨-1, 0⟩, ⟨-1, 0⟩], 3, 0⟩ _ 4 10 true
        (Reachable.new 4 [⟨7, 1⟩, ⟨8, 2⟩, ⟨-5, 3⟩] _ rfl (by decide))
        (by decide) (by decide) (by decide))
      (by decide) (by decide) (by decide))
    2 ⟨7, 20⟩ rfl (by decide)

end SimpleHash
